import Mathlib

/-! Composition Time to Sample Box (`ctts`) of `mp4/ctts.go`.

A shallow embedding of `CttsBox` with its decoder `DecodeCtts`, its encoders
`EncodeSW` and `Encode`, the accessor `Size`, the run-length resolver
`GetCompositionTimeOffset` and the listing `Info`, followed by the properties
proved about them.

Conventions of the embedding:

* a Go `byte`, `uint32` or `int` is a `Nat`, an `int32` is an `Int`; every
  narrowing conversion and every wrapping operation of the source is written
  with an explicit `% 2 ^ w`;
* Go's `int` is taken to be 64 bits wide, so `int(entryCount)` is `entryCount`;
* a Go call ends in one of three ways, kept apart by `Outcome`: a normal
  return, an error handed back to the caller, or a run-time panic; `Run` adds
  the death of the process when an allocation cannot be served;
* a byte slice is a `List Nat` whose capacity equals its length (what
  `make([]byte, n)` gives), so a slice expression `data[lo:hi]` panics exactly
  when `hi` exceeds the length;
* `readBoxBody`, `EncodeHeaderSW`, `newInfoDumper`, `getInfoLevel`, the constants
  `flagsMask` and `boxHeaderSize` and the package `bits` are used by `ctts.go`
  but defined elsewhere; each is marked where it is modelled or taken as an
  argument.
-/

namespace mp4

/-! ## Outcomes -/

/-- Error values that travel through the `error` result of the package's functions. -/
inductive GoError where
  /-- an error reported by `readBoxBody` (any reader error, numbered) -/
  | readBody (code : Nat)
  /-- the accumulated error of a slice writer that ran out of room -/
  | sliceWrite
  /-- an error reported by the destination `io.Writer` (any writer error, numbered) -/
  | destWrite (code : Nat)
  deriving DecidableEq, Repr

/-- How a Go call ends: normal return, returned error, or run-time panic. -/
inductive Outcome (α : Type) where
  | ok (a : α)
  | error (e : GoError)
  | panic
  deriving DecidableEq, Repr

/-! ## Data model -/

/-- The struct `CttsBox` (ctts.go, lines 13-18). -/
structure CttsBox where
  /-- `Version byte` -/
  Version : Nat
  /-- `Flags uint32` -/
  Flags : Nat
  /-- `SampleCount []uint32` -/
  SampleCount : List Nat
  /-- `SampleOffset []int32` -/
  SampleOffset : List Int
  deriving DecidableEq, Repr

/-- Every element of a byte slice is a byte. -/
def Bytes (data : List Nat) : Prop := ∀ x ∈ data, x < 256

instance (data : List Nat) : Decidable (Bytes data) := by
  unfold Bytes; infer_instance

/-- The values of the fields of a `CttsBox` fit their Go types. -/
def CttsBox.Typed (b : CttsBox) : Prop :=
  b.Version < 256 ∧ b.Flags < 2 ^ 32 ∧ (∀ c ∈ b.SampleCount, c < 2 ^ 32) ∧
    (∀ o ∈ b.SampleOffset, -(2 : Int) ^ 31 ≤ o ∧ o < (2 : Int) ^ 31)

instance (b : CttsBox) : Decidable b.Typed := by
  unfold CttsBox.Typed; infer_instance

/-! ## Byte-level helpers of the Go runtime and of `encoding/binary` -/

/-- The slice expression `data[lo:hi]`; `none` is the bounds panic. -/
def slice (data : List Nat) (lo hi : Nat) : Option (List Nat) :=
  if lo ≤ hi ∧ hi ≤ data.length then some ((data.drop lo).take (hi - lo)) else none

/-- The function `binary.BigEndian.Uint32`; `none` is the bounds panic on a slice shorter than 4. -/
def Uint32 (b : List Nat) : Option Nat :=
  match b with
  | b0 :: b1 :: b2 :: b3 :: _ => some (b3 ||| b2 <<< 8 ||| b1 <<< 16 ||| b0 <<< 24)
  | _ => none

/-- The conversion `int32(u)` of a `uint32`: the same 32 bits read as two's complement. -/
def int32 (u : Nat) : Int :=
  if u % 2 ^ 32 < 2 ^ 31 then ((u % 2 ^ 32 : Nat) : Int) else ((u % 2 ^ 32 : Nat) : Int) - 2 ^ 32

/-- The conversion `uint32(v)` of an `int32`: the same 32 bits read as unsigned. -/
def uint32 (v : Int) : Nat := (v % 2 ^ 32).toNat

/-- The four bytes `binary.BigEndian.PutUint32` stores for a `uint32`, first byte first. -/
def be32 (v : Nat) : List Nat :=
  [(v >>> 24) % 256, (v >>> 16) % 256, (v >>> 8) % 256, v % 256]

/-- Modelled from the spec: the constant `flagsMask` is not in src/; section 4.1 says
the low 24 bits of the first word are the flags. -/
def flagsMask : Nat := 0x00ffffff

/-- Modelled from the spec: the constant `boxHeaderSize` is not in src/; section 6 says
the header holds the `size` field and the 4-character `type` field. -/
def boxHeaderSize : Nat := 8

/-! ## Decoder -/

/-- The loop of `DecodeCtts` (lines 35-40) with `k` iterations left, loop variable `i`
and the two slices built so far; `none` is a bounds panic. -/
def decodeEntries (data : List Nat) : Nat → Nat → List Nat → List Int → Option (List Nat × List Int)
  | 0, _, sc, so => some (sc, so)
  | k + 1, i, sc, so =>
    match (slice data (8 + 8 * i) (12 + 8 * i)).bind Uint32 with
    | none => none
    | some sCount =>
      match (slice data (12 + 8 * i) (16 + 8 * i)).bind Uint32 with
      | none => none
      | some sOffset => decodeEntries data k (i + 1) (sc ++ [sCount]) (so ++ [int32 sOffset])

/-- The function `DecodeCtts` (lines 21-42). Its arguments `hdr`, `startPos` and `r` are
used only through `readBoxBody(r, hdr)`, which is not in src/; the outcome of that call,
an error or the body bytes, is the argument `body`. The two `make` calls of lines 31-32
reserve capacity and leave both slices empty; here they are taken to succeed, and
`DecodeCttsMem` is the same function in a process whose memory is limited. -/
def DecodeCtts (body : Except GoError (List Nat)) : Outcome CttsBox :=
  match body with
  | .error err => .error err
  | .ok data =>
    match (slice data 0 4).bind Uint32 with
    | none => .panic
    | some versionAndFlags =>
      match (slice data 4 8).bind Uint32 with
      | none => .panic
      | some entryCount =>
        match decodeEntries data entryCount 0 [] [] with
        | none => .panic
        | some (sc, so) =>
          .ok ⟨(versionAndFlags >>> 24) % 256, versionAndFlags &&& flagsMask, sc, so⟩

/-- How a run ends in a process with limited memory: the Go run-time ends the process
with its out-of-memory fatal error, which no caller can recover from, or the call ends as
`Outcome` says. -/
inductive Run (α : Type) where
  | fatal
  | ended (o : Outcome α)
  deriving DecidableEq, Repr

/-- The function `DecodeCtts` (lines 21-42) with the two `make` calls of lines 31-32, in a
process that can still allocate `avail` bytes: `make([]uint32, 0, entryCount)` and then
`make([]int32, 0, entryCount)` each ask for `4 * entryCount` bytes, and a call that
cannot be served ends the process in `makeslice`. -/
def DecodeCttsMem (avail : Nat) (body : Except GoError (List Nat)) : Run CttsBox :=
  match body with
  | .error err => .ended (.error err)
  | .ok data =>
    match (slice data 0 4).bind Uint32 with
    | none => .ended .panic
    | some versionAndFlags =>
      match (slice data 4 8).bind Uint32 with
      | none => .ended .panic
      | some entryCount =>
        if 4 * entryCount > avail then .fatal
        else if 4 * entryCount > avail - 4 * entryCount then .fatal
        else
          match decodeEntries data entryCount 0 [] [] with
          | none => .ended .panic
          | some (sc, so) =>
            .ended (.ok ⟨(versionAndFlags >>> 24) % 256, versionAndFlags &&& flagsMask, sc, so⟩)

/-! ## Encoder -/

/-- The method `Type` (lines 45-47). -/
def CttsBox.boxType (_b : CttsBox) : String := "ctts"

/-- The method `Size` (lines 50-52). The sum is computed in `int`; it stays below `2 ^ 63`
for every slice that fits the address space, so no wrap is written. -/
def CttsBox.Size (b : CttsBox) : Nat := boxHeaderSize + 8 + b.SampleCount.length * 8

/-- Modelled from the spec: the interface `bits.SliceWriter` and its fixed-size
implementation are not in src/; section 4.2 says the writer reports an error when its
capacity is insufficient, that the first error is kept and that no write follows it.
`buf` holds the bytes written so far, `cap` the size of the underlying slice. -/
structure SliceWriter where
  buf : List Nat
  cap : Nat
  accError : Option GoError
  deriving DecidableEq, Repr

/-- Modelled from the spec: `bits.NewFixedSliceWriter` is not in src/; an empty writer over
a slice of `size` bytes. -/
def NewFixedSliceWriter (size : Nat) : SliceWriter := ⟨[], size, none⟩

/-- Modelled from the spec: the common body of the writer's methods, not in src/; after an
error nothing is written, and bytes that do not fit set the error. -/
def SliceWriter.WriteBytes (sw : SliceWriter) (bs : List Nat) : SliceWriter :=
  match sw.accError with
  | some _ => sw
  | none =>
    if sw.buf.length + bs.length > sw.cap then ⟨sw.buf, sw.cap, some GoError.sliceWrite⟩
    else ⟨sw.buf ++ bs, sw.cap, none⟩

/-- Modelled from the spec: `SliceWriter.WriteUint32` is not in src/; big-endian. -/
def SliceWriter.WriteUint32 (sw : SliceWriter) (n : Nat) : SliceWriter := sw.WriteBytes (be32 n)

/-- Modelled from the spec: `SliceWriter.WriteInt32` is not in src/; the raw bit pattern,
big-endian. -/
def SliceWriter.WriteInt32 (sw : SliceWriter) (n : Int) : SliceWriter :=
  sw.WriteBytes (be32 (uint32 n))

/-- Modelled from the spec: `SliceWriter.WriteString` is not in src/; the bytes of the
string, without terminator. -/
def SliceWriter.WriteString (sw : SliceWriter) (s : String) : SliceWriter :=
  sw.WriteBytes (s.toList.map Char.toNat)

/-- Modelled from the spec: `SliceWriter.AccError` is not in src/; the first error met. -/
def SliceWriter.AccError (sw : SliceWriter) : Option GoError := sw.accError

/-- Modelled from the spec: `EncodeHeaderSW` is not in src/; section 6 says the header
carries the box size and the 4-character type, `boxHeaderSize` bytes in all. The header
writer reports no error of its own: bytes the slice writer cannot take are kept in the
error the writer accumulates, which `EncodeSW` returns at line 78. The size field is 32
bits wide; the spec says nothing about a box whose size does not fit it, and the field
then holds the low 32 bits. -/
def EncodeHeaderSW (b : CttsBox) (sw : SliceWriter) : SliceWriter × Option GoError :=
  ((sw.WriteUint32 (b.Size % 2 ^ 32)).WriteString b.boxType, none)

/-- The loop of `EncodeSW` (lines 74-77) over the remaining counts, loop variable `i`.
The flag is `false` when `b.SampleOffset[i]` panicked; the writer is returned as the
panic left it. -/
def encodeEntries (b : CttsBox) : List Nat → Nat → SliceWriter → SliceWriter × Bool
  | [], _, sw => (sw, true)
  | c :: cs, i, sw =>
    let sw1 := sw.WriteUint32 c
    match b.SampleOffset[i]? with
    | none => (sw1, false)
    | some o => encodeEntries b cs (i + 1) (sw1.WriteInt32 o)

/-- The method `EncodeSW` (lines 66-79): the writer as the call leaves it, and how the
call ends. -/
def CttsBox.EncodeSW (b : CttsBox) (sw : SliceWriter) : SliceWriter × Outcome Unit :=
  match EncodeHeaderSW b sw with
  | (sw1, some err) => (sw1, .error err)
  | (sw1, none) =>
    let versionAndFlags := ((b.Version <<< 24) % 2 ^ 32 + b.Flags) % 2 ^ 32
    let sw2 := (sw1.WriteUint32 versionAndFlags).WriteUint32 (b.SampleCount.length % 2 ^ 32)
    match encodeEntries b b.SampleCount 0 sw2 with
    | (sw3, false) => (sw3, .panic)
    | (sw3, true) =>
      match sw3.AccError with
      | some err => (sw3, .error err)
      | none => (sw3, .ok ())

/-- The bytes of an encoded box after its header. -/
def bodyOf (sw : SliceWriter) : List Nat := sw.buf.drop boxHeaderSize

/-! ## Offset resolver -/

/-- The loop of `GetCompositionTimeOffset` (lines 89-95) over the remaining counts, loop
variable `i`, with the running value of `sampleNr`. -/
def resolveLoop (b : CttsBox) : List Nat → Nat → Nat → Outcome Int
  | [], _, _ => .ok 0
  | c :: cs, i, sampleNr =>
    if sampleNr ≥ c then resolveLoop b cs (i + 1) (sampleNr - c)
    else
      match b.SampleOffset[i]? with
      | none => .panic
      | some o => .ok o

/-- The method `GetCompositionTimeOffset` (lines 82-97). -/
def CttsBox.GetCompositionTimeOffset (b : CttsBox) (sampleNr : Nat) : Outcome Int :=
  if sampleNr = 0 then .panic
  else resolveLoop b b.SampleCount 0 (sampleNr - 1)

/-- The run-length expansion of the entries: each offset repeated as often as its count
says, in entry order. This follows the wording of the spec, not the code. -/
def expandRuns : List Nat → List Int → List Int
  | c :: cs, o :: os => List.replicate c o ++ expandRuns cs os
  | _, _ => []

/-! ## Layout and value functions used in the statements -/

/-- The big-endian value of the four bytes of `data` from offset `off` on. -/
def u32At (data : List Nat) (off : Nat) : Nat :=
  data.getD off 0 * 2 ^ 24 + data.getD (off + 1) 0 * 2 ^ 16 + data.getD (off + 2) 0 * 2 ^ 8 +
    data.getD (off + 3) 0

/-- The counts a body of `k` entries holds from entry `i` on. -/
def countsFrom (data : List Nat) (i k : Nat) : List Nat :=
  (List.range k).map (fun j => u32At data (8 + 8 * (i + j)))

/-- The offsets a body of `k` entries holds from entry `i` on, read as signed. -/
def offsetsFrom (data : List Nat) (i k : Nat) : List Int :=
  (List.range k).map (fun j => int32 (u32At data (12 + 8 * (i + j))))

/-- The table `DecodeCtts` builds from a body that is long enough. -/
def decoded (data : List Nat) : CttsBox :=
  ⟨(u32At data 0 >>> 24) % 256, u32At data 0 &&& flagsMask,
    countsFrom data 0 (u32At data 4), offsetsFrom data 0 (u32At data 4)⟩

/-- The bytes of the entries in the layout of the spec (section 6): for each pair the count
and then the offset, each as four big-endian bytes. -/
def entryBytes : List Nat → List Int → List Nat
  | c :: cs, o :: os => be32 c ++ (be32 (uint32 o) ++ entryBytes cs os)
  | _, _ => []

/-- The bytes of the box header as `EncodeHeaderSW` writes them. -/
def headerBytes (b : CttsBox) : List Nat :=
  be32 (b.Size % 2 ^ 32) ++ b.boxType.toList.map Char.toNat

/-- The bytes of the box body in the layout of the spec (section 6). -/
def bodyBytes (b : CttsBox) : List Nat :=
  be32 (((b.Version <<< 24) % 2 ^ 32 + b.Flags) % 2 ^ 32) ++
    (be32 (b.SampleCount.length % 2 ^ 32) ++ entryBytes b.SampleCount b.SampleOffset)

/-! ## Encode to an `io.Writer` -/

/-- An `io.Writer` of the Go standard library as `Encode` meets it, for one call of `Write`:
`out` holds the bytes the destination has received, and `accept p` tells how many bytes of
`p` that call takes and which error it returns. -/
structure Writer where
  out : List Nat
  accept : List Nat → Nat × Option GoError

/-- The call `w.Write(p)`: the destination after the call, and the error returned. -/
def Writer.Write (w : Writer) (p : List Nat) : Writer × Option GoError :=
  (⟨w.out ++ p.take (w.accept p).1, w.accept⟩, (w.accept p).2)

/-- Modelled from the spec: `SliceWriter.Bytes` is not in src/; the bytes written so far. -/
def SliceWriter.Bytes (sw : SliceWriter) : List Nat := sw.buf

/-- The method `Encode` (lines 55-63). -/
def CttsBox.Encode (b : CttsBox) (w : Writer) : Writer × Outcome Unit :=
  match b.EncodeSW (NewFixedSliceWriter b.Size) with
  | (_, .error err) => (w, .error err)
  | (_, .panic) => (w, .panic)
  | (sw, .ok _) =>
    match w.Write sw.Bytes with
    | (w1, some err) => (w1, .error err)
    | (w1, none) => (w1, .ok ())

/-! ## Diagnostic listing -/

/-- Modelled from the spec: the type `infoDumper` is not in src/; section 4.5 calls the
listing pure formatting, so a dumper is the indent, the lines written so far and the error
it has met. -/
structure infoDumper where
  indent : String
  lines : List String
  err : Option GoError
  deriving DecidableEq, Repr

/-- Modelled from the spec: the method `infoDumper.write` is not in src/; one line, the
indent first, and nothing once the dumper has met an error. -/
def infoDumper.write (bd : infoDumper) (line : String) : infoDumper :=
  match bd.err with
  | some _ => bd
  | none => ⟨bd.indent, bd.lines ++ [bd.indent ++ line], none⟩

/-- The line `" - sampleCount: %d"` of `Info` (line 102). -/
def summaryLine (n : Nat) : String := " - sampleCount: " ++ toString n

/-- The line `" - entry[%d]: sampleCount=%d sampleOffset=%d"` of `Info` (line 105). -/
def entryLine (pos count : Nat) (offset : Int) : String :=
  " - entry[" ++ toString pos ++ "]: sampleCount=" ++ toString count ++ " sampleOffset=" ++
    toString offset

/-- The loop of `Info` (lines 104-106) over the remaining counts, loop variable `i`. The
flag is `false` when `b.SampleOffset[i]` panicked. -/
def infoEntries (b : CttsBox) : List Nat → Nat → infoDumper → infoDumper × Bool
  | [], _, bd => (bd, true)
  | c :: cs, i, bd =>
    match b.SampleOffset[i]? with
    | none => (bd, false)
    | some o => infoEntries b cs (i + 1) (bd.write (entryLine (i + 1) c o))

/-- The method `Info` (lines 100-109). Its arguments `w`, `indent` and `indentStep` are
used only through `newInfoDumper(w, indent, b, int(b.Version), b.Flags)` and its argument
`specificBoxLevels` only through `getInfoLevel(b, specificBoxLevels)`; neither function is
in src/, so the dumper the first returns is the argument `bd` and the level the second
returns is the argument `level`. -/
def CttsBox.Info (b : CttsBox) (bd : infoDumper) (level : Int) : infoDumper × Outcome Unit :=
  let bd1 := bd.write (summaryLine b.SampleCount.length)
  if level > 0 then
    match infoEntries b b.SampleCount 0 bd1 with
    | (bd2, false) => (bd2, .panic)
    | (bd2, true) =>
      match bd2.err with
      | some err => (bd2, .error err)
      | none => (bd2, .ok ())
  else
    match bd1.err with
    | some err => (bd1, .error err)
    | none => (bd1, .ok ())

/-! ## Further functions used in the statements -/

/-- The effect of the loop of `EncodeSW` on the writer when no index panics: count and
offset of each pair, in order. -/
def writeEntries : SliceWriter → List Nat → List Int → SliceWriter
  | sw, c :: cs, o :: os => writeEntries ((sw.WriteUint32 c).WriteInt32 o) cs os
  | sw, _, _ => sw

/-- The writer after a sequence of writes, one per chunk of bytes. -/
def writeChunks (sw : SliceWriter) (chunks : List (List Nat)) : SliceWriter :=
  chunks.foldl SliceWriter.WriteBytes sw

/-- The chunks the loop of `EncodeSW` writes: for each pair the count, then the offset. -/
def entryChunks : List Nat → List Int → List (List Nat)
  | c :: cs, o :: os => be32 c :: be32 (uint32 o) :: entryChunks cs os
  | _, _ => []

/-- All chunks `EncodeSW` writes, in order: size, type, version and flags, count, entries. -/
def allChunks (b : CttsBox) : List (List Nat) :=
  be32 (b.Size % 2 ^ 32) :: b.boxType.toList.map Char.toNat ::
    be32 (((b.Version <<< 24) % 2 ^ 32 + b.Flags) % 2 ^ 32) ::
    be32 (b.SampleCount.length % 2 ^ 32) :: entryChunks b.SampleCount b.SampleOffset

/-- The lines of the entries as the spec words them (section 4.5): one line per pair, with
its one-based position `pos`, its count and its offset. -/
def entryLines (indent : String) : List Nat → List Int → Nat → List String
  | c :: cs, o :: os, pos => (indent ++ entryLine pos c o) :: entryLines indent cs os (pos + 1)
  | _, _, _ => []

/-- The table `b` with the offsets beyond the last count dropped. -/
def CttsBox.trimmed (b : CttsBox) : CttsBox :=
  ⟨b.Version, b.Flags, b.SampleCount, b.SampleOffset.take b.SampleCount.length⟩


/-! ## Resolver lemmas -/

theorem resolveLoop_beyond (b : CttsBox) :
    ∀ (cs : List Nat) (i nr : Nat), cs.sum ≤ nr → resolveLoop b cs i nr = .ok 0 := by
  intro cs
  induction cs with
  | nil => intro i nr _; rfl
  | cons c cs ih =>
    intro i nr h
    simp only [List.sum_cons] at h
    have hc : nr ≥ c := by omega
    simp only [resolveLoop, hc, if_true]
    exact ih (i + 1) (nr - c) (by omega)

theorem sum_take_mono (cs : List Nat) : ∀ (j k : Nat), j ≤ k → (cs.take j).sum ≤ (cs.take k).sum := by
  induction cs with
  | nil => intro j k _; simp
  | cons c cs ih =>
    intro j k h
    cases j with
    | zero => simp
    | succ j =>
      cases k with
      | zero => omega
      | succ k =>
        simp only [List.take_succ_cons, List.sum_cons]
        have := ih j k (by omega)
        omega

theorem resolveLoop_run (b : CttsBox) :
    ∀ (cs : List Nat) (i nr : Nat), i + cs.length ≤ b.SampleOffset.length → nr < cs.sum →
      ∃ j o, b.SampleOffset[i + j]? = some o ∧ (cs.take j).sum ≤ nr ∧ nr < (cs.take (j + 1)).sum ∧
        resolveLoop b cs i nr = .ok o ∧ (expandRuns cs (b.SampleOffset.drop i))[nr]? = some o := by
  intro cs
  induction cs with
  | nil => intro i nr _ h; simp at h
  | cons c cs ih =>
    intro i nr hlen h
    simp only [List.sum_cons, List.length_cons] at h hlen
    have hi : i < b.SampleOffset.length := by omega
    have hdrop : b.SampleOffset.drop i = b.SampleOffset[i] :: b.SampleOffset.drop (i + 1) :=
      List.drop_eq_getElem_cons hi
    by_cases hc : nr ≥ c
    · obtain ⟨j, o, h1, h2, h3, h4, h5⟩ := ih (i + 1) (nr - c) (by omega) (by omega)
      refine ⟨j + 1, o, ?_, ?_, ?_, ?_, ?_⟩
      · rw [← h1]; congr 1; omega
      · simp only [List.take_succ_cons, List.sum_cons]; omega
      · simp only [List.take_succ_cons, List.sum_cons]; omega
      · simp only [resolveLoop, hc, if_true]; exact h4
      · rw [hdrop]
        simp only [expandRuns]
        rw [List.getElem?_append_right (by simpa using hc)]
        simpa using h5
    · refine ⟨0, b.SampleOffset[i], ?_, ?_, ?_, ?_, ?_⟩
      · simp [List.getElem?_eq_getElem hi]
      · simp
      · simp; omega
      · simp only [resolveLoop, hc, if_false, List.getElem?_eq_getElem hi]
      · rw [hdrop]
        simp only [expandRuns]
        rw [List.getElem?_append_left (by simpa using hc)]
        simp [List.getElem?_replicate]
        omega

/-! ## Resolver: claims C2, C4, C5 -/

/-- C2: for a table whose entries are pairs and a one-based index `n` with
`1 ≤ n ≤` the sum of all counts, `GetCompositionTimeOffset n` returns the offset of the
one entry `i` whose run contains sample `n` (the counts before `i` sum to less than `n`,
those up to and including `i` to at least `n`), and that offset is element `n - 1` of the
run-length expansion of the entries. -/
theorem getCompositionTimeOffset_in_range (b : CttsBox) (n : Nat)
    (hpair : b.SampleOffset.length = b.SampleCount.length)
    (h1 : 1 ≤ n) (hn : n ≤ b.SampleCount.sum) :
    ∃ i o, b.SampleOffset[i]? = some o ∧
      (b.SampleCount.take i).sum < n ∧ n ≤ (b.SampleCount.take (i + 1)).sum ∧
      (∀ j, (b.SampleCount.take j).sum < n ∧ n ≤ (b.SampleCount.take (j + 1)).sum → j = i) ∧
      b.GetCompositionTimeOffset n = .ok o ∧
      (expandRuns b.SampleCount b.SampleOffset)[n - 1]? = some o := by
  obtain ⟨i, o, h1', h2, h3, h4, h5⟩ :=
    resolveLoop_run b b.SampleCount 0 (n - 1) (by omega) (by omega)
  refine ⟨i, o, by simpa using h1', by omega, by omega, ?_, ?_, by simpa using h5⟩
  · intro j hj
    by_contra hne
    rcases Nat.lt_or_gt_of_ne hne with hlt | hgt
    · have := sum_take_mono b.SampleCount (j + 1) i (by omega)
      omega
    · have := sum_take_mono b.SampleCount (i + 1) j (by omega)
      omega
  · have hn0 : ¬ n = 0 := by omega
    simp only [CttsBox.GetCompositionTimeOffset, hn0, if_false]
    exact h4

/-- C2, at the entries `[(3, 100), (2, -50)]` of the spec: the samples 1 to 5 resolve to
100, 100, 100, -50, -50. -/
theorem getCompositionTimeOffset_in_range_witness :
    (∃ i o, ([100, -50] : List Int)[i]? = some o ∧
      (([3, 2] : List Nat).take i).sum < 4 ∧ 4 ≤ (([3, 2] : List Nat).take (i + 1)).sum ∧
      (∀ j, (([3, 2] : List Nat).take j).sum < 4 ∧ 4 ≤ (([3, 2] : List Nat).take (j + 1)).sum → j = i) ∧
      (⟨0, 0, [3, 2], [100, -50]⟩ : CttsBox).GetCompositionTimeOffset 4 = .ok o ∧
      (expandRuns [3, 2] [100, -50])[4 - 1]? = some o) ∧
    (List.map (⟨0, 0, [3, 2], [100, -50]⟩ : CttsBox).GetCompositionTimeOffset [1, 2, 3, 4, 5]
      = [.ok 100, .ok 100, .ok 100, .ok (-50), .ok (-50)]) :=
  ⟨getCompositionTimeOffset_in_range ⟨0, 0, [3, 2], [100, -50]⟩ 4 (by decide) (by decide) (by decide),
    by decide⟩

/-- C4 (as the code has it): with sample number 0, `GetCompositionTimeOffset` panics on
every table; it returns neither an offset nor an error value. -/
theorem getCompositionTimeOffset_zero_panics (b : CttsBox) :
    b.GetCompositionTimeOffset 0 = .panic := by
  simp [CttsBox.GetCompositionTimeOffset]

/-- C4 fails as stated: on the table `[(3, 100), (2, -50)]` the call with sample number 0
panics, so no error is returned to the caller. -/
theorem getCompositionTimeOffset_zero_no_error :
    (⟨0, 0, [3, 2], [100, -50]⟩ : CttsBox).GetCompositionTimeOffset 0 = .panic ∧
      ¬ ∃ e, (⟨0, 0, [3, 2], [100, -50]⟩ : CttsBox).GetCompositionTimeOffset 0 = .error e := by
  refine ⟨by decide, ?_⟩
  rintro ⟨e, he⟩
  have hp : (⟨0, 0, [3, 2], [100, -50]⟩ : CttsBox).GetCompositionTimeOffset 0 = .panic := by decide
  rw [hp] at he
  cases he

/-- C5: for every table and every `n ≥ 1` greater than the sum of all counts,
`GetCompositionTimeOffset n` returns 0 and does not fail; on a table without entries the
sum is 0, so that is every `n ≥ 1`. -/
theorem getCompositionTimeOffset_beyond (b : CttsBox) (n : Nat) (h1 : 1 ≤ n)
    (h : b.SampleCount.sum < n) : b.GetCompositionTimeOffset n = .ok 0 := by
  have hn0 : ¬ n = 0 := by omega
  simp only [CttsBox.GetCompositionTimeOffset, hn0, if_false]
  exact resolveLoop_beyond b b.SampleCount 0 (n - 1) (by omega)

/-- C5, at the spec's table `[(3, 100), (2, -50)]` with `n = 6` and at a table without
entries with `n = 1`. -/
theorem getCompositionTimeOffset_beyond_witness :
    (⟨0, 0, [3, 2], [100, -50]⟩ : CttsBox).GetCompositionTimeOffset 6 = .ok 0 ∧
      (⟨0, 0, [], []⟩ : CttsBox).GetCompositionTimeOffset 1 = .ok 0 :=
  ⟨getCompositionTimeOffset_beyond ⟨0, 0, [3, 2], [100, -50]⟩ 6 (by decide) (by decide),
    getCompositionTimeOffset_beyond ⟨0, 0, [], []⟩ 1 (by decide) (by decide)⟩

/-! ## Byte arithmetic -/

theorem or_shift_bytes (b0 b1 b2 b3 : Nat) (h1 : b1 < 256) (h2 : b2 < 256) (h3 : b3 < 256) :
    b3 ||| b2 <<< 8 ||| b1 <<< 16 ||| b0 <<< 24 = b0 * 2 ^ 24 + b1 * 2 ^ 16 + b2 * 2 ^ 8 + b3 := by
  have e1 : b3 ||| b2 <<< 8 = b2 * 2 ^ 8 + b3 := by
    rw [Nat.shiftLeft_eq, Nat.lor_comm, Nat.mul_comm b2, ← Nat.mul_add_lt_is_or (by omega)]
  have e2 : b2 * 2 ^ 8 + b3 ||| b1 <<< 16 = b1 * 2 ^ 16 + (b2 * 2 ^ 8 + b3) := by
    rw [Nat.shiftLeft_eq, Nat.lor_comm, Nat.mul_comm b1, ← Nat.mul_add_lt_is_or (by omega)]
  have e3 : b1 * 2 ^ 16 + (b2 * 2 ^ 8 + b3) ||| b0 <<< 24
      = b0 * 2 ^ 24 + (b1 * 2 ^ 16 + (b2 * 2 ^ 8 + b3)) := by
    rw [Nat.shiftLeft_eq, Nat.lor_comm, Nat.mul_comm b0, ← Nat.mul_add_lt_is_or (by omega)]
  rw [e1, e2, e3]; omega

theorem getD_lt_of_bytes {data : List Nat} (hb : Bytes data) (k : Nat) : data.getD k 0 < 256 := by
  by_cases hk : k < data.length
  · rw [List.getD_eq_getElem _ _ hk]; exact hb _ (List.getElem_mem hk)
  · rw [List.getD_eq_default _ _ (by omega)]; omega

theorem u32At_lt {data : List Nat} (hb : Bytes data) (off : Nat) : u32At data off < 2 ^ 32 := by
  have h0 := getD_lt_of_bytes hb off
  have h1 := getD_lt_of_bytes hb (off + 1)
  have h2 := getD_lt_of_bytes hb (off + 2)
  have h3 := getD_lt_of_bytes hb (off + 3)
  unfold u32At; omega

theorem slice_four (data : List Nat) (lo hi : Nat) (hhi : hi = lo + 4) (hlen : hi ≤ data.length) :
    slice data lo hi = some [data.getD lo 0, data.getD (lo + 1) 0, data.getD (lo + 2) 0,
      data.getD (lo + 3) 0] := by
  subst hhi
  have e : lo + 4 - lo = 4 := by omega
  simp only [slice, hlen, Nat.le_add_right, and_self, if_true, e]
  rw [List.drop_eq_getElem_cons (by omega : lo < data.length),
    List.drop_eq_getElem_cons (by omega : lo + 1 < data.length),
    List.drop_eq_getElem_cons (by omega : lo + 1 + 1 < data.length),
    List.drop_eq_getElem_cons (by omega : lo + 1 + 1 + 1 < data.length)]
  simp only [List.take_succ_cons, List.take_zero]
  rw [List.getD_eq_getElem _ _ (by omega : lo < data.length),
    List.getD_eq_getElem _ _ (by omega : lo + 1 < data.length),
    List.getD_eq_getElem _ _ (by omega : lo + 2 < data.length),
    List.getD_eq_getElem _ _ (by omega : lo + 3 < data.length)]

theorem slice_none (data : List Nat) (lo hi : Nat) (h : data.length < hi) :
    slice data lo hi = none := by
  have : ¬ (lo ≤ hi ∧ hi ≤ data.length) := by omega
  simp only [slice, this, if_false]

theorem read_u32 {data : List Nat} (hb : Bytes data) (lo hi : Nat) (hhi : hi = lo + 4)
    (hlen : hi ≤ data.length) : (slice data lo hi).bind Uint32 = some (u32At data lo) := by
  rw [slice_four data lo hi hhi hlen]
  simp only [Option.some_bind, Uint32, u32At]
  rw [or_shift_bytes _ _ _ _ (getD_lt_of_bytes hb _) (getD_lt_of_bytes hb _)
    (getD_lt_of_bytes hb _)]

theorem read_u32_isSome (data : List Nat) (lo hi : Nat) (hhi : hi = lo + 4)
    (hlen : hi ≤ data.length) : ∃ v, (slice data lo hi).bind Uint32 = some v := by
  rw [slice_four data lo hi hhi hlen]
  exact ⟨_, rfl⟩

theorem read_u32_none (data : List Nat) (lo hi : Nat) (h : data.length < hi) :
    (slice data lo hi).bind Uint32 = none := by
  rw [slice_none data lo hi h]; rfl

/-! ## Decoder lemmas -/

theorem countsFrom_succ (data : List Nat) (i k : Nat) :
    countsFrom data i (k + 1) = u32At data (8 + 8 * i) :: countsFrom data (i + 1) k := by
  have e : (fun j => u32At data (8 + 8 * (i + j))) ∘ Nat.succ
      = fun j => u32At data (8 + 8 * (i + 1 + j)) := by
    funext j
    show u32At data (8 + 8 * (i + (j + 1))) = u32At data (8 + 8 * (i + 1 + j))
    rw [show 8 + 8 * (i + (j + 1)) = 8 + 8 * (i + 1 + j) by omega]
  simp only [countsFrom, List.range_succ_eq_map, List.map_cons, List.map_map, Nat.add_zero, e]

theorem offsetsFrom_succ (data : List Nat) (i k : Nat) :
    offsetsFrom data i (k + 1)
      = int32 (u32At data (12 + 8 * i)) :: offsetsFrom data (i + 1) k := by
  have e : (fun j => int32 (u32At data (12 + 8 * (i + j)))) ∘ Nat.succ
      = fun j => int32 (u32At data (12 + 8 * (i + 1 + j))) := by
    funext j
    show int32 (u32At data (12 + 8 * (i + (j + 1)))) = int32 (u32At data (12 + 8 * (i + 1 + j)))
    rw [show 12 + 8 * (i + (j + 1)) = 12 + 8 * (i + 1 + j) by omega]
  simp only [offsetsFrom, List.range_succ_eq_map, List.map_cons, List.map_map, Nat.add_zero, e]

theorem decodeEntries_ok {data : List Nat} (hb : Bytes data) :
    ∀ (k i : Nat) (sc : List Nat) (so : List Int), 8 + 8 * (i + k) ≤ data.length →
      decodeEntries data k i sc so
        = some (sc ++ countsFrom data i k, so ++ offsetsFrom data i k) := by
  intro k
  induction k with
  | zero => intro i sc so _; simp [decodeEntries, countsFrom, offsetsFrom]
  | succ k ih =>
    intro i sc so h
    rw [decodeEntries, read_u32 hb (8 + 8 * i) (12 + 8 * i) (by omega) (by omega)]
    simp only []
    rw [read_u32 hb (12 + 8 * i) (16 + 8 * i) (by omega) (by omega)]
    simp only []
    rw [ih (i + 1) _ _ (by omega), countsFrom_succ, offsetsFrom_succ]
    simp

theorem decodeEntries_short (data : List Nat) :
    ∀ (k i : Nat) (sc : List Nat) (so : List Int), data.length < 8 + 8 * (i + k) → 0 < k →
      decodeEntries data k i sc so = none := by
  intro k
  induction k with
  | zero => intro i sc so _ h; omega
  | succ k ih =>
    intro i sc so h _
    rw [decodeEntries]
    by_cases hlen : 16 + 8 * i ≤ data.length
    · obtain ⟨v, hv⟩ := read_u32_isSome data (8 + 8 * i) (12 + 8 * i) (by omega) (by omega)
      obtain ⟨w, hw⟩ := read_u32_isSome data (12 + 8 * i) (16 + 8 * i) (by omega) hlen
      rw [hv]; simp only []
      rw [hw]; simp only []
      exact ih (i + 1) _ _ (by omega) (by omega)
    · by_cases hlen2 : 12 + 8 * i ≤ data.length
      · obtain ⟨v, hv⟩ := read_u32_isSome data (8 + 8 * i) (12 + 8 * i) (by omega) hlen2
        rw [hv]; simp only []
        rw [read_u32_none data (12 + 8 * i) (16 + 8 * i) (by omega)]
      · rw [read_u32_none data (8 + 8 * i) (12 + 8 * i) (by omega)]

theorem DecodeCtts_ok {data : List Nat} (hb : Bytes data)
    (h : 8 + 8 * u32At data 4 ≤ data.length) : DecodeCtts (.ok data) = .ok (decoded data) := by
  simp only [DecodeCtts]
  rw [read_u32 hb 0 4 (by omega) (by omega)]
  simp only []
  rw [read_u32 hb 4 8 (by omega) (by omega)]
  simp only []
  rw [decodeEntries_ok hb _ 0 [] [] (by omega)]
  simp [decoded]

theorem DecodeCtts_short {data : List Nat} (hb : Bytes data)
    (h : data.length < 8 + 8 * u32At data 4) : DecodeCtts (.ok data) = .panic := by
  simp only [DecodeCtts]
  by_cases h4 : 4 ≤ data.length
  · rw [read_u32 hb 0 4 (by omega) h4]
    simp only []
    by_cases h8 : 8 ≤ data.length
    · rw [read_u32 hb 4 8 (by omega) h8]
      simp only []
      rw [decodeEntries_short data _ 0 [] [] (by omega) (by omega)]
    · rw [read_u32_none data 4 8 (by omega)]
  · rw [read_u32_none data 0 4 (by omega)]

/-! ## Decoder: claims C3, C8, C9 -/

theorem int32_eq (u : Nat) (h : u < 2 ^ 32) :
    int32 u = if u < 2 ^ 31 then (u : Int) else (u : Int) - 2 ^ 32 := by
  unfold int32
  rw [Nat.mod_eq_of_lt h]

theorem version_byte {data : List Nat} (hb : Bytes data) :
    (u32At data 0 >>> 24) % 256 = data.getD 0 0 := by
  have h0 := getD_lt_of_bytes hb 0
  have h1 := getD_lt_of_bytes hb 1
  have h2 := getD_lt_of_bytes hb 2
  have h3 := getD_lt_of_bytes hb 3
  rw [Nat.shiftRight_eq_div_pow]
  simp only [u32At, Nat.zero_add]
  omega

theorem flags_bytes {data : List Nat} (hb : Bytes data) :
    u32At data 0 &&& flagsMask = data.getD 1 0 * 2 ^ 16 + data.getD 2 0 * 2 ^ 8 + data.getD 3 0 := by
  have h0 := getD_lt_of_bytes hb 0
  have h1 := getD_lt_of_bytes hb 1
  have h2 := getD_lt_of_bytes hb 2
  have h3 := getD_lt_of_bytes hb 3
  have e : flagsMask = 2 ^ 24 - 1 := by decide
  rw [e, Nat.and_pow_two_sub_one_eq_mod]
  simp only [u32At, Nat.zero_add]
  omega

theorem countsFrom_length (data : List Nat) (i k : Nat) : (countsFrom data i k).length = k := by
  simp [countsFrom]

theorem offsetsFrom_length (data : List Nat) (i k : Nat) : (offsetsFrom data i k).length = k := by
  simp [offsetsFrom]

theorem countsFrom_get (data : List Nat) (i k j : Nat) (hj : j < k) :
    (countsFrom data i k)[j]? = some (u32At data (8 + 8 * (i + j))) := by
  simp [countsFrom, List.getElem?_range hj]

theorem offsetsFrom_get (data : List Nat) (i k j : Nat) (hj : j < k) :
    (offsetsFrom data i k)[j]? = some (int32 (u32At data (12 + 8 * (i + j)))) := by
  simp [offsetsFrom, List.getElem?_range hj]

/-- A successful decode of a byte body means the body was long enough, and the result is
the table `decoded`. -/
theorem DecodeCtts_eq_ok {data : List Nat} (hb : Bytes data) {b : CttsBox}
    (h : DecodeCtts (.ok data) = .ok b) :
    8 + 8 * u32At data 4 ≤ data.length ∧ b = decoded data := by
  by_cases hlen : 8 + 8 * u32At data 4 ≤ data.length
  · rw [DecodeCtts_ok hb hlen] at h
    injection h with h
    exact ⟨hlen, h.symm⟩
  · rw [DecodeCtts_short hb (by omega)] at h
    cases h

theorem DecodeCttsMem_enough {data : List Nat} (hb : Bytes data) (avail : Nat)
    (h8 : 8 ≤ data.length) (hmem : 8 * u32At data 4 ≤ avail) :
    DecodeCttsMem avail (.ok data) = .ended (DecodeCtts (.ok data)) := by
  have h1 : ¬ 4 * u32At data 4 > avail := by omega
  have h2 : ¬ 4 * u32At data 4 > avail - 4 * u32At data 4 := by omega
  simp only [DecodeCttsMem, DecodeCtts]
  rw [read_u32 hb 0 4 (by omega) (by omega)]
  simp only []
  rw [read_u32 hb 4 8 (by omega) h8]
  simp only [h1, h2, if_false]
  cases decodeEntries data (u32At data 4) 0 [] [] with
  | none => rfl
  | some r => rfl

theorem DecodeCttsMem_fatal {data : List Nat} (hb : Bytes data) (avail : Nat)
    (h8 : 8 ≤ data.length) (hmem : avail < 8 * u32At data 4) :
    DecodeCttsMem avail (.ok data) = .fatal := by
  simp only [DecodeCttsMem]
  rw [read_u32 hb 0 4 (by omega) (by omega)]
  simp only []
  rw [read_u32 hb 4 8 (by omega) h8]
  simp only []
  by_cases h1 : 4 * u32At data 4 > avail
  · simp only [h1, if_true]
  · have h2 : 4 * u32At data 4 > avail - 4 * u32At data 4 := by omega
    simp only [h1, h2, if_false, if_true]

theorem DecodeCttsMem_head_short (data : List Nat) (avail : Nat) (h8 : data.length < 8) :
    DecodeCttsMem avail (.ok data) = .ended .panic := by
  simp only [DecodeCttsMem]
  by_cases h4 : 4 ≤ data.length
  · obtain ⟨v, hv⟩ := read_u32_isSome data 0 4 (by omega) h4
    rw [hv]
    simp only []
    rw [read_u32_none data 4 8 (by omega)]
  · rw [read_u32_none data 0 4 (by omega)]

/-- C3 (as the code has it): for every body shorter than `8 + 8 * entryCount`, where
`entryCount` is the big-endian value of body bytes 4 to 7, `DecodeCtts` returns no table,
partial or not, and no error value. In a process that can still allocate `avail` bytes
the run ends in one of two ways: when the body has its 8 leading bytes and the two slices
of capacity `entryCount` (8 bytes per entry) do not fit `avail`, the process dies in
`makeslice` with the out-of-memory fatal error; in every other case the call ends in a
run-time slice-bounds panic. -/
theorem decodeCtts_truncated_aborts (avail : Nat) (data : List Nat) (hb : Bytes data)
    (h : data.length < 8 + 8 * u32At data 4) :
    DecodeCttsMem avail (.ok data)
      = if 8 ≤ data.length ∧ avail < 8 * u32At data 4 then .fatal else .ended .panic := by
  by_cases h8 : 8 ≤ data.length
  · by_cases hmem : avail < 8 * u32At data 4
    · rw [DecodeCttsMem_fatal hb avail h8 hmem]
      simp only [h8, hmem, and_self, if_true]
    · rw [DecodeCttsMem_enough hb avail h8 (by omega), DecodeCtts_short hb h]
      simp only [hmem, and_false, if_false]
  · rw [DecodeCttsMem_head_short data avail (by omega)]
    simp only [h8, false_and, if_false]

/-- C3 (as the code has it), at the spec's body of 12 bytes with `entryCount = 2` in a
process with 1024 bytes to allocate, which panics, and at the body of 8 bytes with
`entryCount = 0xFFFFFFFF` in a process with `2 ^ 30` bytes to allocate, which dies in
`makeslice`. -/
theorem decodeCtts_truncated_aborts_witness :
    DecodeCttsMem 1024 (.ok [0, 0, 0, 0, 0, 0, 0, 2, 0, 0, 0, 1]) = .ended .panic ∧
      DecodeCttsMem (2 ^ 30) (.ok [0, 0, 0, 0, 255, 255, 255, 255]) = .fatal :=
  ⟨(decodeCtts_truncated_aborts 1024 [0, 0, 0, 0, 0, 0, 0, 2, 0, 0, 0, 1] (by decide)
      (by decide)).trans (by decide),
    (decodeCtts_truncated_aborts (2 ^ 30) [0, 0, 0, 0, 255, 255, 255, 255] (by decide)
      (by decide)).trans (by decide)⟩

/-- C3 fails as stated: the body of 12 bytes with `entryCount = 2` makes `DecodeCtts`
panic, also in a process with 1024 bytes to allocate, so no error is returned to the
caller. -/
theorem decodeCtts_truncated_no_error :
    DecodeCtts (.ok [0, 0, 0, 0, 0, 0, 0, 2, 0, 0, 0, 1]) = .panic ∧
      (¬ ∃ e, DecodeCtts (.ok [0, 0, 0, 0, 0, 0, 0, 2, 0, 0, 0, 1]) = .error e) ∧
      DecodeCttsMem 1024 (.ok [0, 0, 0, 0, 0, 0, 0, 2, 0, 0, 0, 1]) = .ended .panic := by
  have hp : DecodeCtts (.ok [0, 0, 0, 0, 0, 0, 0, 2, 0, 0, 0, 1]) = .panic := by decide
  refine ⟨hp, ?_, by decide⟩
  rintro ⟨e, he⟩
  rw [hp] at he
  cases he

/-- C8: on every body of at least `8 + 8 * entryCount` bytes `DecodeCtts` succeeds; the
box has body byte 0 as `Version`, the big-endian value of body bytes 1 to 3 as `Flags`,
`entryCount` counts and as many offsets, and entry `i` has the big-endian value at body
offset `8 + 8 * i` as count and the big-endian value at body offset `12 + 8 * i`, read as
a signed 32-bit number, as offset. -/
theorem decodeCtts_fields (data : List Nat) (hb : Bytes data)
    (h : 8 + 8 * u32At data 4 ≤ data.length) :
    ∃ b, DecodeCtts (.ok data) = .ok b ∧
      b.Version = data.getD 0 0 ∧
      b.Flags = data.getD 1 0 * 2 ^ 16 + data.getD 2 0 * 2 ^ 8 + data.getD 3 0 ∧
      b.SampleCount.length = u32At data 4 ∧ b.SampleOffset.length = u32At data 4 ∧
      ∀ i, i < u32At data 4 →
        b.SampleCount[i]? = some (u32At data (8 + 8 * i)) ∧
        b.SampleOffset[i]? = some (if u32At data (12 + 8 * i) < 2 ^ 31
          then (u32At data (12 + 8 * i) : Int) else (u32At data (12 + 8 * i) : Int) - 2 ^ 32) := by
  refine ⟨decoded data, DecodeCtts_ok hb h, version_byte hb, flags_bytes hb,
    countsFrom_length _ _ _, offsetsFrom_length _ _ _, ?_⟩
  intro i hi
  constructor
  · have := countsFrom_get data 0 _ i hi
    simpa [decoded] using this
  · have := offsetsFrom_get data 0 _ i hi
    rw [Nat.zero_add, int32_eq _ (u32At_lt hb _)] at this
    simpa [decoded] using this

/-- C8, at a body of version 1, flags 5 and the two entries `(3, -1)` and `(2, 7)`. -/
theorem decodeCtts_fields_witness :
    ∃ b, DecodeCtts (.ok [1, 0, 0, 5, 0, 0, 0, 2, 0, 0, 0, 3, 255, 255, 255, 255,
        0, 0, 0, 2, 0, 0, 0, 7]) = .ok b ∧ b = ⟨1, 5, [3, 2], [-1, 7]⟩ := by
  obtain ⟨b, hb, _⟩ := decodeCtts_fields [1, 0, 0, 5, 0, 0, 0, 2, 0, 0, 0, 3, 255, 255, 255, 255,
    0, 0, 0, 2, 0, 0, 0, 7] (by decide) (by decide)
  refine ⟨b, hb, ?_⟩
  have hd : DecodeCtts (.ok [1, 0, 0, 5, 0, 0, 0, 2, 0, 0, 0, 3, 255, 255, 255, 255,
    0, 0, 0, 2, 0, 0, 0, 7]) = .ok ⟨1, 5, [3, 2], [-1, 7]⟩ := by decide
  rw [hd] at hb
  injection hb with hb
  exact hb.symm

theorem u32At_cons (v w : Nat) (rest : List Nat) (off : Nat) (h : 1 ≤ off) :
    u32At (v :: rest) off = u32At (w :: rest) off := by
  obtain ⟨k, rfl⟩ : ∃ k, off = k + 1 := ⟨off - 1, by omega⟩
  simp only [u32At, List.getD_cons_succ]

theorem countsFrom_cons (v w : Nat) (rest : List Nat) (i k : Nat) :
    countsFrom (v :: rest) i k = countsFrom (w :: rest) i k := by
  unfold countsFrom
  apply List.map_congr_left
  intro j _
  exact u32At_cons v w rest _ (by omega)

theorem offsetsFrom_cons (v w : Nat) (rest : List Nat) (i k : Nat) :
    offsetsFrom (v :: rest) i k = offsetsFrom (w :: rest) i k := by
  unfold offsetsFrom
  apply List.map_congr_left
  intro j _
  show int32 _ = int32 _
  rw [u32At_cons v w rest _ (by omega)]

/-- C9: whenever a body with version byte `v` decodes, the same body with any other version
byte `w` decodes to the same counts and the same offsets, and every decoded offset is the
two's-complement reading of its raw 32-bit field: `raw` when `raw < 2 ^ 31`, else
`raw - 2 ^ 32`. -/
theorem decodeCtts_offset_sign_uniform (v w : Nat) (rest : List Nat)
    (hv : Bytes (v :: rest)) (hw : Bytes (w :: rest)) (b : CttsBox)
    (hdec : DecodeCtts (.ok (v :: rest)) = .ok b) :
    (∃ b', DecodeCtts (.ok (w :: rest)) = .ok b' ∧
      b'.SampleCount = b.SampleCount ∧ b'.SampleOffset = b.SampleOffset) ∧
    ∀ i, i < b.SampleOffset.length →
      b.SampleOffset[i]? = some (if u32At (v :: rest) (12 + 8 * i) < 2 ^ 31
        then (u32At (v :: rest) (12 + 8 * i) : Int)
        else (u32At (v :: rest) (12 + 8 * i) : Int) - 2 ^ 32) := by
  obtain ⟨hlen, rfl⟩ := DecodeCtts_eq_ok hv hdec
  have e4 : u32At (w :: rest) 4 = u32At (v :: rest) 4 := u32At_cons w v rest 4 (by omega)
  have hlen' : 8 + 8 * u32At (w :: rest) 4 ≤ (w :: rest).length := by
    rw [e4]; simpa using hlen
  constructor
  · refine ⟨decoded (w :: rest), DecodeCtts_ok hw hlen', ?_, ?_⟩
    · simp only [decoded, e4]; exact countsFrom_cons w v rest _ _
    · simp only [decoded, e4]; exact offsetsFrom_cons w v rest _ _
  · intro i hi
    have hi' : i < u32At (v :: rest) 4 := by
      simpa [decoded, offsetsFrom_length] using hi
    have := offsetsFrom_get (v :: rest) 0 _ i hi'
    rw [Nat.zero_add, int32_eq _ (u32At_lt hv _)] at this
    simpa [decoded] using this

/-- C9, at a body whose only entry has the raw offset field `0xFFFFFFFF`: it decodes to
the offset -1 under version 0 and under version 1. -/
theorem decodeCtts_offset_sign_uniform_witness :
    DecodeCtts (.ok [0, 0, 0, 0, 0, 0, 0, 1, 0, 0, 0, 9, 255, 255, 255, 255])
        = .ok ⟨0, 0, [9], [-1]⟩ ∧
      ∃ b', DecodeCtts (.ok [1, 0, 0, 0, 0, 0, 0, 1, 0, 0, 0, 9, 255, 255, 255, 255]) = .ok b' ∧
        b'.SampleCount = [9] ∧ b'.SampleOffset = [-1] :=
  ⟨by decide,
    (decodeCtts_offset_sign_uniform 0 1 [0, 0, 0, 0, 0, 0, 1, 0, 0, 0, 9, 255, 255, 255, 255]
      (by decide) (by decide) ⟨0, 0, [9], [-1]⟩ (by decide)).1⟩

/-! ## Encoder lemmas -/

theorem be32_length (v : Nat) : (be32 v).length = 4 := rfl

theorem headerBytes_length (b : CttsBox) : (headerBytes b).length = boxHeaderSize := rfl

theorem entryBytes_length :
    ∀ (cs : List Nat) (os : List Int), cs.length ≤ os.length →
      (entryBytes cs os).length = 8 * cs.length := by
  intro cs
  induction cs with
  | nil => intro os _; simp [entryBytes]
  | cons c cs ih =>
    intro os h
    cases os with
    | nil => simp at h
    | cons o os =>
      simp only [List.length_cons] at h
      simp only [entryBytes, List.length_append, be32_length, List.length_cons,
        ih os (by omega)]
      omega

theorem bodyBytes_length (b : CttsBox) (h : b.SampleCount.length ≤ b.SampleOffset.length) :
    (bodyBytes b).length = 8 + 8 * b.SampleCount.length := by
  simp only [bodyBytes, List.length_append, be32_length, entryBytes_length _ _ h]
  omega

theorem WriteBytes_ok (sw : SliceWriter) (bs : List Nat) (herr : sw.accError = none)
    (hroom : sw.buf.length + bs.length ≤ sw.cap) :
    sw.WriteBytes bs = ⟨sw.buf ++ bs, sw.cap, none⟩ := by
  have : ¬ sw.buf.length + bs.length > sw.cap := by omega
  simp only [SliceWriter.WriteBytes, herr, this, if_false]

theorem encodeEntries_ok (b : CttsBox) :
    ∀ (cs : List Nat) (i : Nat) (sw : SliceWriter), sw.accError = none →
      i + cs.length ≤ b.SampleOffset.length → sw.buf.length + 8 * cs.length ≤ sw.cap →
      encodeEntries b cs i sw
        = (⟨sw.buf ++ entryBytes cs (b.SampleOffset.drop i), sw.cap, none⟩, true) := by
  intro cs
  induction cs with
  | nil =>
    intro i sw herr _ _
    cases sw
    simp only at herr
    simp [encodeEntries, entryBytes, herr]
  | cons c cs ih =>
    intro i sw herr hlen hroom
    simp only [List.length_cons] at hlen hroom
    have hi : i < b.SampleOffset.length := by omega
    rw [List.drop_eq_getElem_cons hi]
    simp only [encodeEntries, List.getElem?_eq_getElem hi, SliceWriter.WriteUint32,
      SliceWriter.WriteInt32]
    rw [WriteBytes_ok sw (be32 c) herr (by rw [be32_length]; omega)]
    rw [WriteBytes_ok _ (be32 (uint32 b.SampleOffset[i])) rfl
      (by simp only [List.length_append, be32_length]; omega)]
    rw [ih (i + 1) _ rfl (by omega)
      (by simp only [List.length_append, be32_length]; omega)]
    simp only [entryBytes, List.append_assoc]

theorem EncodeSW_ok (b : CttsBox) (sw : SliceWriter)
    (hlen : b.SampleCount.length ≤ b.SampleOffset.length) (herr : sw.accError = none)
    (hroom : sw.buf.length + b.Size ≤ sw.cap) :
    b.EncodeSW sw = (⟨sw.buf ++ (headerBytes b ++ bodyBytes b), sw.cap, none⟩, .ok ()) := by
  have hsize : b.Size = 8 + 8 + b.SampleCount.length * 8 := rfl
  have htype : (b.boxType.toList.map Char.toNat).length = 4 := rfl
  have h1 := WriteBytes_ok sw (be32 (b.Size % 2 ^ 32)) herr (by rw [be32_length]; omega)
  have h2 := WriteBytes_ok ⟨sw.buf ++ be32 (b.Size % 2 ^ 32), sw.cap, none⟩
    (b.boxType.toList.map Char.toNat) rfl
    (by simp only [List.length_append, be32_length, htype]; omega)
  have h3 := WriteBytes_ok
    ⟨sw.buf ++ be32 (b.Size % 2 ^ 32) ++ b.boxType.toList.map Char.toNat, sw.cap, none⟩
    (be32 (((b.Version <<< 24) % 2 ^ 32 + b.Flags) % 2 ^ 32)) rfl
    (by simp only [List.length_append, be32_length, htype]; omega)
  have h4 := WriteBytes_ok
    ⟨sw.buf ++ be32 (b.Size % 2 ^ 32) ++ b.boxType.toList.map Char.toNat ++
      be32 (((b.Version <<< 24) % 2 ^ 32 + b.Flags) % 2 ^ 32), sw.cap, none⟩
    (be32 (b.SampleCount.length % 2 ^ 32)) rfl
    (by simp only [List.length_append, be32_length, htype]; omega)
  have h5 := encodeEntries_ok b b.SampleCount 0
    ⟨sw.buf ++ be32 (b.Size % 2 ^ 32) ++ b.boxType.toList.map Char.toNat ++
      be32 (((b.Version <<< 24) % 2 ^ 32 + b.Flags) % 2 ^ 32) ++
      be32 (b.SampleCount.length % 2 ^ 32), sw.cap, none⟩ rfl (by omega)
    (by simp only [List.length_append, be32_length, htype]; omega)
  simp only [CttsBox.EncodeSW, EncodeHeaderSW, SliceWriter.WriteUint32, SliceWriter.WriteString,
    SliceWriter.AccError, h1, h2, h3, h4, h5]
  simp only [List.drop_zero, headerBytes, bodyBytes, List.append_assoc]

/-! ## Round-trip lemmas -/

theorem be32_sum (v : Nat) (h : v < 2 ^ 32) :
    v / 2 ^ 24 % 256 * 2 ^ 24 + v / 2 ^ 16 % 256 * 2 ^ 16 + v / 2 ^ 8 % 256 * 2 ^ 8 + v % 256
      = v := by
  omega

theorem Uint32_be32 (v : Nat) (h : v < 2 ^ 32) : Uint32 (be32 v) = some v := by
  simp only [be32, Uint32]
  rw [or_shift_bytes _ _ _ _ (Nat.mod_lt _ (by decide)) (Nat.mod_lt _ (by decide))
    (Nat.mod_lt _ (by decide))]
  simp only [Nat.shiftRight_eq_div_pow]
  rw [be32_sum v h]

theorem int32_uint32 (o : Int) (h1 : -(2 : Int) ^ 31 ≤ o) (h2 : o < (2 : Int) ^ 31) :
    int32 (uint32 o) = o := by
  unfold int32 uint32
  have hlt : (o % 2 ^ 32).toNat < 2 ^ 32 := by omega
  rw [Nat.mod_eq_of_lt hlt]
  split <;> omega

theorem uint32_lt (o : Int) : uint32 o < 2 ^ 32 := by
  unfold uint32; omega

theorem slice_mid (pre mid post : List Nat) (lo hi : Nat) (hlo : lo = pre.length)
    (hhi : hi = lo + mid.length) : slice (pre ++ (mid ++ post)) lo hi = some mid := by
  subst hlo hhi
  have h1 : pre.length ≤ pre.length + mid.length ∧
      pre.length + mid.length ≤ (pre ++ (mid ++ post)).length := by
    simp only [List.length_append]; omega
  have e : pre.length + mid.length - pre.length = mid.length := by omega
  simp only [slice, h1, and_self, if_true, List.drop_left, e, List.take_left]

theorem slice_head (mid post : List Nat) (hi : Nat) (hhi : hi = mid.length) :
    slice (mid ++ post) 0 hi = some mid := by
  subst hhi
  have h1 : 0 ≤ mid.length ∧ mid.length ≤ (mid ++ post).length := by
    simp only [List.length_append]; omega
  simp only [slice, h1, and_self, if_true, List.drop_zero, Nat.sub_zero, List.take_left]

theorem decodeEntries_entryBytes :
    ∀ (cs : List Nat) (os : List Int) (pre : List Nat) (i : Nat) (sc : List Nat) (so : List Int),
      cs.length = os.length → pre.length = 8 + 8 * i → (∀ c ∈ cs, c < 2 ^ 32) →
      (∀ o ∈ os, -(2 : Int) ^ 31 ≤ o ∧ o < (2 : Int) ^ 31) →
      decodeEntries (pre ++ entryBytes cs os) cs.length i sc so = some (sc ++ cs, so ++ os) := by
  intro cs
  induction cs with
  | nil =>
    intro os pre i sc so hlen _ _ _
    cases os with
    | nil => simp [decodeEntries]
    | cons o os => simp at hlen
  | cons c cs ih =>
    intro os pre i sc so hlen hpre hc ho
    cases os with
    | nil => simp at hlen
    | cons o os =>
      simp only [List.length_cons, Nat.add_right_cancel_iff] at hlen
      have hc0 : c < 2 ^ 32 := hc c (List.mem_cons_self _ _)
      have ho0 := ho o (List.mem_cons_self _ _)
      simp only [entryBytes, List.length_cons, decodeEntries]
      rw [slice_mid pre (be32 c) _ (8 + 8 * i) (12 + 8 * i) (by omega)
        (by rw [be32_length]; omega)]
      simp only [Option.some_bind, Uint32_be32 c hc0]
      have e : pre ++ (be32 c ++ (be32 (uint32 o) ++ entryBytes cs os))
          = (pre ++ be32 c) ++ (be32 (uint32 o) ++ entryBytes cs os) := by
        rw [List.append_assoc]
      rw [e, slice_mid (pre ++ be32 c) (be32 (uint32 o)) _ (12 + 8 * i) (16 + 8 * i)
        (by simp only [List.length_append, be32_length]; omega)
        (by rw [be32_length]; omega)]
      simp only [Option.some_bind, Uint32_be32 _ (uint32_lt o), int32_uint32 o ho0.1 ho0.2]
      have e2 : (pre ++ be32 c) ++ (be32 (uint32 o) ++ entryBytes cs os)
          = (pre ++ be32 c ++ be32 (uint32 o)) ++ entryBytes cs os := by
        rw [List.append_assoc (pre ++ be32 c)]
      rw [e2, ih os (pre ++ be32 c ++ be32 (uint32 o)) (i + 1) _ _ hlen
        (by simp only [List.length_append, be32_length]; omega)
        (fun x hx => hc x (List.mem_cons_of_mem _ hx))
        (fun x hx => ho x (List.mem_cons_of_mem _ hx))]
      simp

theorem word_fields (v f : Nat) (hv : v < 256) (hf : f < 2 ^ 24) :
    ((v <<< 24) % 2 ^ 32 + f) % 2 ^ 32 = v * 2 ^ 24 + f ∧
      ((v * 2 ^ 24 + f) >>> 24) % 256 = v ∧ (v * 2 ^ 24 + f) &&& flagsMask = f := by
  have e : flagsMask = 2 ^ 24 - 1 := by decide
  rw [e, Nat.and_pow_two_sub_one_eq_mod, Nat.shiftLeft_eq, Nat.shiftRight_eq_div_pow]
  refine ⟨by omega, by omega, by omega⟩

/-- Decoding the body the encoder lays out, for a box whose fields fit their types and
whose flags fit 24 bits: the count field holds the number of entries modulo `2 ^ 32`. -/
theorem DecodeCtts_bodyBytes (b : CttsBox) (ht : b.Typed) (hf : b.Flags < 2 ^ 24)
    (hpair : b.SampleOffset.length = b.SampleCount.length)
    (hn : b.SampleCount.length < 2 ^ 32) : DecodeCtts (.ok (bodyBytes b)) = .ok b := by
  obtain ⟨hv, _, hc, ho⟩ := ht
  obtain ⟨w1, w2, w3⟩ := word_fields b.Version b.Flags hv hf
  simp only [DecodeCtts, bodyBytes, w1, Nat.mod_eq_of_lt hn]
  rw [slice_head (be32 _) _ 4 rfl]
  simp only [Option.some_bind, Uint32_be32 _ (by omega : b.Version * 2 ^ 24 + b.Flags < 2 ^ 32)]
  rw [slice_mid (be32 _) (be32 b.SampleCount.length) _ 4 8 rfl rfl]
  simp only [Option.some_bind, Uint32_be32 _ hn]
  have e : be32 (b.Version * 2 ^ 24 + b.Flags) ++
      (be32 b.SampleCount.length ++ entryBytes b.SampleCount b.SampleOffset)
      = (be32 (b.Version * 2 ^ 24 + b.Flags) ++ be32 b.SampleCount.length) ++
        entryBytes b.SampleCount b.SampleOffset := by
    rw [List.append_assoc]
  rw [e, decodeEntries_entryBytes b.SampleCount b.SampleOffset
    (be32 (b.Version * 2 ^ 24 + b.Flags) ++ be32 b.SampleCount.length) 0 [] [] hpair.symm
    (by simp only [List.length_append, be32_length]) hc ho]
  simp only [List.nil_append, w2, w3]

theorem EncodeSW_fresh (b : CttsBox) (cap : Nat)
    (hlen : b.SampleCount.length ≤ b.SampleOffset.length) (hcap : b.Size ≤ cap) :
    b.EncodeSW (NewFixedSliceWriter cap) = (⟨headerBytes b ++ bodyBytes b, cap, none⟩, .ok ()) := by
  have hroom : (NewFixedSliceWriter cap).buf.length + b.Size ≤ (NewFixedSliceWriter cap).cap := by
    simp only [NewFixedSliceWriter, List.length_nil, Nat.zero_add]
    exact hcap
  have herr : (NewFixedSliceWriter cap).accError = none := by
    simp only [NewFixedSliceWriter]
  rw [EncodeSW_ok b (NewFixedSliceWriter cap) hlen herr hroom]
  simp only [NewFixedSliceWriter]
  rw [List.nil_append]

theorem bodyOf_fresh (b : CttsBox) (cap : Nat) :
    bodyOf ⟨headerBytes b ++ bodyBytes b, cap, none⟩ = bodyBytes b := by
  simp only [bodyOf]
  rw [← headerBytes_length b, List.drop_left]

/-! ## Encoder and round trip: claims C1, C6, C7, C10 -/

theorem int32_range (u : Nat) : -(2 : Int) ^ 31 ≤ int32 u ∧ int32 u < (2 : Int) ^ 31 := by
  unfold int32
  split <;> omega

theorem decoded_typed {data : List Nat} (hb : Bytes data) :
    (decoded data).Typed ∧ (decoded data).Flags < 2 ^ 24 ∧
      (decoded data).SampleOffset.length = (decoded data).SampleCount.length ∧
      (decoded data).SampleCount.length < 2 ^ 32 := by
  have e : flagsMask = 2 ^ 24 - 1 := by decide
  have hfl : u32At data 0 &&& flagsMask < 2 ^ 24 := by
    rw [e, Nat.and_pow_two_sub_one_eq_mod]
    exact Nat.mod_lt _ (by decide)
  refine ⟨⟨Nat.mod_lt _ (by decide), by simp only [decoded]; omega, ?_, ?_⟩, hfl, ?_, ?_⟩
  · intro c hc
    simp only [decoded, countsFrom, List.mem_map] at hc
    obtain ⟨j, _, rfl⟩ := hc
    exact u32At_lt hb _
  · intro o ho
    simp only [decoded, offsetsFrom, List.mem_map] at ho
    obtain ⟨j, _, rfl⟩ := ho
    exact int32_range _
  · simp only [decoded, countsFrom_length, offsetsFrom_length]
  · simp only [decoded, countsFrom_length]
    exact u32At_lt hb 4

/-- C1: for every table of the spec's data model (fields of their Go types, flags of 24
bits, entries as pairs, and a number of entries that the 32-bit count field can hold),
`EncodeSW` into a fresh writer with room for `Size` bytes succeeds, and `DecodeCtts` on
the bytes written after the box header succeeds and returns the same table. -/
theorem encode_decode_roundtrip (T : CttsBox) (cap : Nat) (ht : T.Typed)
    (hf : T.Flags < 2 ^ 24) (hpair : T.SampleOffset.length = T.SampleCount.length)
    (hn : T.SampleCount.length < 2 ^ 32) (hcap : T.Size ≤ cap) :
    (T.EncodeSW (NewFixedSliceWriter cap)).2 = .ok () ∧
      DecodeCtts (.ok (bodyOf (T.EncodeSW (NewFixedSliceWriter cap)).1)) = .ok T := by
  rw [EncodeSW_fresh T cap (by omega) hcap]
  simp only []
  rw [bodyOf_fresh]
  exact ⟨trivial, DecodeCtts_bodyBytes T ht hf hpair hn⟩

/-- C1, at the table of version 1, flags 5 and entries `(3, -1)`, `(2, 7)`. -/
theorem encode_decode_roundtrip_witness :
    ((⟨1, 5, [3, 2], [-1, 7]⟩ : CttsBox).EncodeSW (NewFixedSliceWriter 32)).2 = .ok () ∧
      DecodeCtts (.ok (bodyOf ((⟨1, 5, [3, 2], [-1, 7]⟩ : CttsBox).EncodeSW
        (NewFixedSliceWriter 32)).1)) = .ok ⟨1, 5, [3, 2], [-1, 7]⟩ :=
  encode_decode_roundtrip ⟨1, 5, [3, 2], [-1, 7]⟩ 32 (by decide) (by decide) (by decide)
    (by decide) (by decide)

/-- C10: whenever `DecodeCtts` succeeds on a body of bytes with result `T`, `EncodeSW` of
`T` into a fresh writer with room for `Size` bytes succeeds and decoding the body it wrote
gives `T` again, offsets included. -/
theorem decode_encode_decode (data : List Nat) (hb : Bytes data) (T : CttsBox)
    (hdec : DecodeCtts (.ok data) = .ok T) (cap : Nat) (hcap : T.Size ≤ cap) :
    (T.EncodeSW (NewFixedSliceWriter cap)).2 = .ok () ∧
      DecodeCtts (.ok (bodyOf (T.EncodeSW (NewFixedSliceWriter cap)).1)) = .ok T := by
  obtain ⟨_, rfl⟩ := DecodeCtts_eq_ok hb hdec
  obtain ⟨ht, hf, hpair, hn⟩ := decoded_typed hb
  rw [EncodeSW_fresh _ cap (by omega) hcap]
  simp only []
  rw [bodyOf_fresh]
  exact ⟨trivial, DecodeCtts_bodyBytes _ ht hf hpair hn⟩

/-- C10, at a body of version 0 whose entry has the raw offset `0xFFFFFFFF`, followed by
one surplus byte. -/
theorem decode_encode_decode_witness :
    ((⟨0, 0, [9], [-1]⟩ : CttsBox).EncodeSW (NewFixedSliceWriter 24)).2 = .ok () ∧
      DecodeCtts (.ok (bodyOf ((⟨0, 0, [9], [-1]⟩ : CttsBox).EncodeSW
        (NewFixedSliceWriter 24)).1)) = .ok ⟨0, 0, [9], [-1]⟩ :=
  decode_encode_decode [0, 0, 0, 0, 0, 0, 0, 1, 0, 0, 0, 9, 255, 255, 255, 255, 7]
    (by decide) ⟨0, 0, [9], [-1]⟩ (by decide) 24 (by decide)

theorem entryBytes_slices :
    ∀ (cs : List Nat) (os : List Int) (pre : List Nat) (i lo : Nat), cs.length ≤ os.length →
      i < cs.length → lo = pre.length + 8 * i →
      ∃ c o, cs[i]? = some c ∧ os[i]? = some o ∧
        slice (pre ++ entryBytes cs os) lo (lo + 4) = some (be32 c) ∧
        slice (pre ++ entryBytes cs os) (lo + 4) (lo + 8) = some (be32 (uint32 o)) := by
  intro cs
  induction cs with
  | nil => intro os pre i lo _ hi _; simp at hi
  | cons c cs ih =>
    intro os pre i lo hlen hi hlo
    cases os with
    | nil => simp at hlen
    | cons o os =>
      simp only [List.length_cons] at hlen hi
      have e1 : pre ++ (be32 c ++ (be32 (uint32 o) ++ entryBytes cs os))
          = (pre ++ be32 c) ++ (be32 (uint32 o) ++ entryBytes cs os) := by
        rw [List.append_assoc]
      have e2 : pre ++ (be32 c ++ (be32 (uint32 o) ++ entryBytes cs os))
          = (pre ++ be32 c ++ be32 (uint32 o)) ++ entryBytes cs os := by
        rw [List.append_assoc, List.append_assoc]
      cases i with
      | zero =>
        refine ⟨c, o, List.getElem?_cons_zero, List.getElem?_cons_zero, ?_, ?_⟩
        · simp only [entryBytes]
          exact slice_mid pre (be32 c) _ lo (lo + 4) (by omega) (by rw [be32_length])
        · simp only [entryBytes]
          rw [e1]
          exact slice_mid (pre ++ be32 c) (be32 (uint32 o)) _ (lo + 4) (lo + 8)
            (by simp only [List.length_append, be32_length]; omega)
            (by rw [be32_length])
      | succ i =>
        obtain ⟨c', o', h1, h2, h3, h4⟩ := ih os (pre ++ be32 c ++ be32 (uint32 o)) i lo
          (by omega) (by omega)
          (by simp only [List.length_append, be32_length]; omega)
        refine ⟨c', o', by simpa using h1, by simpa using h2, ?_, ?_⟩
        · simp only [entryBytes]; rw [e2]; exact h3
        · simp only [entryBytes]; rw [e2]; exact h4

theorem be32_word (v f : Nat) (hv : v < 256) (hf : f < 2 ^ 24) :
    be32 (v * 2 ^ 24 + f) = [v, f / 2 ^ 16 % 256, f / 2 ^ 8 % 256, f % 256] := by
  simp only [be32, Nat.shiftRight_eq_div_pow]
  have a0 : (v * 2 ^ 24 + f) / 2 ^ 24 % 256 = v := by omega
  have a1 : (v * 2 ^ 24 + f) / 2 ^ 16 % 256 = f / 2 ^ 16 % 256 := by omega
  have a2 : (v * 2 ^ 24 + f) / 2 ^ 8 % 256 = f / 2 ^ 8 % 256 := by omega
  have a3 : (v * 2 ^ 24 + f) % 256 = f % 256 := by omega
  rw [a0, a1, a2, a3]

/-- C6: for a table whose entries are pairs, `EncodeSW` into a writer without error and
with room for `Size` more bytes succeeds and appends exactly `Size` bytes, box header
included, and `Size` is `boxHeaderSize + 8 + 8 * N` for `N` entries. -/
theorem encodeSW_writes_size (b : CttsBox) (sw : SliceWriter)
    (hpair : b.SampleOffset.length = b.SampleCount.length) (herr : sw.accError = none)
    (hroom : sw.buf.length + b.Size ≤ sw.cap) :
    (b.EncodeSW sw).2 = .ok () ∧
      (∃ written, (b.EncodeSW sw).1.buf = sw.buf ++ written ∧ written.length = b.Size) ∧
      b.Size = boxHeaderSize + 8 + 8 * b.SampleCount.length := by
  have hsize : b.Size = boxHeaderSize + 8 + 8 * b.SampleCount.length := by
    simp only [CttsBox.Size]; omega
  rw [EncodeSW_ok b sw (by omega) herr hroom]
  refine ⟨rfl, ⟨headerBytes b ++ bodyBytes b, rfl, ?_⟩, hsize⟩
  rw [List.length_append, headerBytes_length, bodyBytes_length b (by omega), hsize]
  omega

/-- C6, at a table of two entries written into a fresh writer of 32 bytes, the size the
method `Encode` asks for. -/
theorem encodeSW_writes_size_witness :
    ((⟨1, 5, [3, 2], [-1, 7]⟩ : CttsBox).EncodeSW (NewFixedSliceWriter 32)).2 = .ok () ∧
      (∃ written, ((⟨1, 5, [3, 2], [-1, 7]⟩ : CttsBox).EncodeSW (NewFixedSliceWriter 32)).1.buf
          = (NewFixedSliceWriter 32).buf ++ written ∧
        written.length = (⟨1, 5, [3, 2], [-1, 7]⟩ : CttsBox).Size) ∧
      (⟨1, 5, [3, 2], [-1, 7]⟩ : CttsBox).Size
        = boxHeaderSize + 8 + 8 * (⟨1, 5, [3, 2], [-1, 7]⟩ : CttsBox).SampleCount.length :=
  encodeSW_writes_size ⟨1, 5, [3, 2], [-1, 7]⟩ (NewFixedSliceWriter 32) (by decide) (by decide)
    (by decide)

/-- C7: for a table with `N` entries that are pairs, a version byte and flags of 24 bits,
`EncodeSW` into a writer with room appends the `boxHeaderSize` bytes of the box header and
then a body of `8 + 8 * N` bytes: at offset 0 the word with `Version` as top byte and
`Flags` in the three bytes after it, at offset 4 the count `N` as a big-endian `uint32`,
and for each entry `i` the count at offset `8 + 8 * i` and the raw bits of the offset at
offset `12 + 8 * i`, each as four big-endian bytes. -/
theorem encodeSW_layout (b : CttsBox) (sw : SliceWriter) (hv : b.Version < 256)
    (hf : b.Flags < 2 ^ 24) (hpair : b.SampleOffset.length = b.SampleCount.length)
    (herr : sw.accError = none) (hroom : sw.buf.length + b.Size ≤ sw.cap) :
    ∃ hdr body, (b.EncodeSW sw).2 = .ok () ∧ (b.EncodeSW sw).1.buf = sw.buf ++ (hdr ++ body) ∧
      hdr.length = boxHeaderSize ∧ body.length = 8 + 8 * b.SampleCount.length ∧
      slice body 0 4
        = some [b.Version, b.Flags / 2 ^ 16 % 256, b.Flags / 2 ^ 8 % 256, b.Flags % 256] ∧
      slice body 4 8 = some (be32 (b.SampleCount.length % 2 ^ 32)) ∧
      ∀ i, i < b.SampleCount.length → ∃ c o,
        b.SampleCount[i]? = some c ∧ b.SampleOffset[i]? = some o ∧
        slice body (8 + 8 * i) (12 + 8 * i) = some (be32 c) ∧
        slice body (12 + 8 * i) (16 + 8 * i) = some (be32 (uint32 o)) := by
  obtain ⟨w1, _, _⟩ := word_fields b.Version b.Flags hv hf
  rw [EncodeSW_ok b sw (by omega) herr hroom]
  refine ⟨headerBytes b, bodyBytes b, rfl, rfl, headerBytes_length b,
    bodyBytes_length b (by omega), ?_, ?_, ?_⟩
  · simp only [bodyBytes, w1]
    rw [slice_head (be32 _) _ 4 rfl, be32_word b.Version b.Flags hv hf]
  · simp only [bodyBytes]
    exact slice_mid (be32 _) (be32 _) _ 4 8 rfl rfl
  · intro i hi
    have e : bodyBytes b = (be32 (((b.Version <<< 24) % 2 ^ 32 + b.Flags) % 2 ^ 32) ++
        be32 (b.SampleCount.length % 2 ^ 32)) ++ entryBytes b.SampleCount b.SampleOffset := by
      simp only [bodyBytes, List.append_assoc]
    obtain ⟨c, o, h1, h2, h3, h4⟩ := entryBytes_slices b.SampleCount b.SampleOffset
      (be32 (((b.Version <<< 24) % 2 ^ 32 + b.Flags) % 2 ^ 32) ++
        be32 (b.SampleCount.length % 2 ^ 32)) i (8 + 8 * i) (by omega) hi
      (by simp only [List.length_append, be32_length])
    refine ⟨c, o, h1, h2, ?_, ?_⟩
    · rw [e, show 12 + 8 * i = 8 + 8 * i + 4 by omega]; exact h3
    · rw [e, show 12 + 8 * i = 8 + 8 * i + 4 by omega,
        show 16 + 8 * i = 8 + 8 * i + 8 by omega]; exact h4

/-- C7, at the table of version 1, flags 5 and entries `(3, -1)`, `(2, 7)`: the 32 bytes
written into a fresh writer. -/
theorem encodeSW_layout_witness :
    (∃ hdr body, ((⟨1, 5, [3, 2], [-1, 7]⟩ : CttsBox).EncodeSW (NewFixedSliceWriter 32)).2 = .ok () ∧
      ((⟨1, 5, [3, 2], [-1, 7]⟩ : CttsBox).EncodeSW (NewFixedSliceWriter 32)).1.buf
        = (NewFixedSliceWriter 32).buf ++ (hdr ++ body) ∧
      hdr.length = boxHeaderSize ∧ body.length = 8 + 8 * 2 ∧
      slice body 0 4 = some [1, 0, 0, 5] ∧ slice body 4 8 = some [0, 0, 0, 2]) ∧
    ((⟨1, 5, [3, 2], [-1, 7]⟩ : CttsBox).EncodeSW (NewFixedSliceWriter 32)).1.buf
      = [0, 0, 0, 32, 99, 116, 116, 115, 1, 0, 0, 5, 0, 0, 0, 2,
         0, 0, 0, 3, 255, 255, 255, 255, 0, 0, 0, 2, 0, 0, 0, 7] := by
  refine ⟨?_, by decide⟩
  obtain ⟨hdr, body, h1, h2, h3, h4, h5, h6, _⟩ :=
    encodeSW_layout ⟨1, 5, [3, 2], [-1, 7]⟩ (NewFixedSliceWriter 32) (by decide) (by decide)
      (by decide) (by decide) (by decide)
  exact ⟨hdr, body, h1, h2, h3, h4, h5, h6⟩

/-! ## Flags wider than 24 bits and the empty table: claims C13, C15 -/

theorem word_fields_wide (v f : Nat) :
    ((v <<< 24) % 2 ^ 32 + f) % 2 ^ 32 = (v * 2 ^ 24 + f) % 2 ^ 32 ∧
      (((v * 2 ^ 24 + f) % 2 ^ 32) >>> 24) % 256 = (v + f / 2 ^ 24) % 256 ∧
      ((v * 2 ^ 24 + f) % 2 ^ 32) &&& flagsMask = f % 2 ^ 24 := by
  have e : flagsMask = 2 ^ 24 - 1 := by decide
  rw [e, Nat.and_pow_two_sub_one_eq_mod, Nat.shiftLeft_eq, Nat.shiftRight_eq_div_pow]
  refine ⟨by omega, by omega, by omega⟩

/-- Decoding the body the encoder lays out for any typed table with paired entries, fewer
than `2 ^ 32` of them: the flags above bit 23 are added into the version byte. -/
theorem DecodeCtts_bodyBytes_wide (b : CttsBox) (ht : b.Typed)
    (hpair : b.SampleOffset.length = b.SampleCount.length)
    (hn : b.SampleCount.length < 2 ^ 32) :
    DecodeCtts (.ok (bodyBytes b))
      = .ok ⟨(b.Version + b.Flags / 2 ^ 24) % 256, b.Flags % 2 ^ 24, b.SampleCount,
          b.SampleOffset⟩ := by
  obtain ⟨_, _, hc, ho⟩ := ht
  obtain ⟨w1, w2, w3⟩ := word_fields_wide b.Version b.Flags
  simp only [DecodeCtts, bodyBytes, w1, Nat.mod_eq_of_lt hn]
  rw [slice_head (be32 _) _ 4 rfl]
  simp only [Option.some_bind, Uint32_be32 _ (Nat.mod_lt _ (by decide))]
  rw [slice_mid (be32 _) (be32 b.SampleCount.length) _ 4 8 rfl rfl]
  simp only [Option.some_bind, Uint32_be32 _ hn]
  have e : be32 ((b.Version * 2 ^ 24 + b.Flags) % 2 ^ 32) ++
      (be32 b.SampleCount.length ++ entryBytes b.SampleCount b.SampleOffset)
      = (be32 ((b.Version * 2 ^ 24 + b.Flags) % 2 ^ 32) ++ be32 b.SampleCount.length) ++
        entryBytes b.SampleCount b.SampleOffset := by
    rw [List.append_assoc]
  rw [e, decodeEntries_entryBytes b.SampleCount b.SampleOffset
    (be32 ((b.Version * 2 ^ 24 + b.Flags) % 2 ^ 32) ++ be32 b.SampleCount.length) 0 [] []
    hpair.symm (by simp only [List.length_append, be32_length]) hc ho]
  simp only [List.nil_append, w2, w3]

theorem be32_zero : be32 0 = [0, 0, 0, 0] := by decide

theorem be32_head (v f : Nat) (hv : v < 256) (hf : f < 2 ^ 24) :
    (be32 ((v * 2 ^ 24 + f) % 2 ^ 32)).head? = some v := by
  simp only [be32, Nat.shiftRight_eq_div_pow, List.head?_cons]
  congr 1
  omega

/-- C15: for every typed table with paired entries, fewer than `2 ^ 32` of them, `EncodeSW`
writes the first word of the body as `(Version * 2 ^ 24 + Flags) mod 2 ^ 32`, and
decoding the written body gives the version `(Version + Flags div 2 ^ 24) mod 256` and
the flags `Flags mod 2 ^ 24` with the entries unchanged; when `Flags < 2 ^ 24` the top
byte of the word is `Version`; and the table of version 0 with flags `2 ^ 24` comes back
with version 1 and flags 0. -/
theorem flags_overflow_into_version (T : CttsBox) (cap : Nat) (ht : T.Typed)
    (hpair : T.SampleOffset.length = T.SampleCount.length)
    (hn : T.SampleCount.length < 2 ^ 32) (hcap : T.Size ≤ cap) :
    (T.EncodeSW (NewFixedSliceWriter cap)).2 = .ok () ∧
      slice (bodyOf (T.EncodeSW (NewFixedSliceWriter cap)).1) 0 4
        = some (be32 ((T.Version * 2 ^ 24 + T.Flags) % 2 ^ 32)) ∧
      DecodeCtts (.ok (bodyOf (T.EncodeSW (NewFixedSliceWriter cap)).1))
        = .ok ⟨(T.Version + T.Flags / 2 ^ 24) % 256, T.Flags % 2 ^ 24, T.SampleCount,
            T.SampleOffset⟩ ∧
      (T.Flags < 2 ^ 24 →
        (be32 ((T.Version * 2 ^ 24 + T.Flags) % 2 ^ 32)).head? = some T.Version) ∧
      DecodeCtts (.ok (bodyOf ((⟨0, 2 ^ 24, [], []⟩ : CttsBox).EncodeSW
        (NewFixedSliceWriter 16)).1)) = .ok ⟨1, 0, [], []⟩ := by
  rw [EncodeSW_fresh T cap (by omega) hcap]
  simp only []
  rw [bodyOf_fresh]
  refine ⟨trivial, ?_, DecodeCtts_bodyBytes_wide T ht hpair hn,
    fun hf => be32_head T.Version T.Flags ht.1 hf, by decide⟩
  simp only [bodyBytes, (word_fields_wide T.Version T.Flags).1]
  exact slice_head (be32 _) _ 4 rfl

/-- C15, at the table of version 2 with flags `0x03000005` and the entry `(3, -1)`: it
comes back with version 5 and flags 5. -/
theorem flags_overflow_into_version_witness :
    ((⟨2, 0x03000005, [3], [-1]⟩ : CttsBox).EncodeSW (NewFixedSliceWriter 24)).2 = .ok () ∧
      DecodeCtts (.ok (bodyOf ((⟨2, 0x03000005, [3], [-1]⟩ : CttsBox).EncodeSW
        (NewFixedSliceWriter 24)).1)) = .ok ⟨5, 5, [3], [-1]⟩ := by
  obtain ⟨h1, _, h3, _, _⟩ := flags_overflow_into_version ⟨2, 0x03000005, [3], [-1]⟩ 24
    (by decide) (by decide) (by decide) (by decide)
  exact ⟨h1, h3⟩

/-- C13: the table without entries, with a version byte `v` and flags `f` of 24 bits, is
encoded into `boxHeaderSize + 8` bytes, which is its `Size`; the body is the word of
version and flags followed by the count 0; and decoding that body gives the table without
entries and with the same version and flags. -/
theorem empty_table_roundtrip (v f cap : Nat) (hv : v < 256) (hf : f < 2 ^ 24)
    (hcap : boxHeaderSize + 8 ≤ cap) :
    ((⟨v, f, [], []⟩ : CttsBox).EncodeSW (NewFixedSliceWriter cap)).2 = .ok () ∧
      ((⟨v, f, [], []⟩ : CttsBox).EncodeSW (NewFixedSliceWriter cap)).1.buf.length
        = boxHeaderSize + 8 ∧
      (⟨v, f, [], []⟩ : CttsBox).Size = boxHeaderSize + 8 ∧
      bodyOf ((⟨v, f, [], []⟩ : CttsBox).EncodeSW (NewFixedSliceWriter cap)).1
        = be32 (v * 2 ^ 24 + f) ++ [0, 0, 0, 0] ∧
      DecodeCtts (.ok (bodyOf ((⟨v, f, [], []⟩ : CttsBox).EncodeSW
        (NewFixedSliceWriter cap)).1)) = .ok ⟨v, f, [], []⟩ := by
  have hsize : (⟨v, f, [], []⟩ : CttsBox).Size = boxHeaderSize + 8 := by
    simp only [CttsBox.Size, List.length_nil, Nat.zero_mul, Nat.add_zero]
  have hbody : bodyBytes ⟨v, f, [], []⟩ = be32 (v * 2 ^ 24 + f) ++ [0, 0, 0, 0] := by
    simp only [bodyBytes, entryBytes, List.length_nil, Nat.zero_mod, List.append_nil,
      (word_fields v f hv hf).1, be32_zero]
  have hdec : DecodeCtts (.ok (bodyBytes ⟨v, f, [], []⟩)) = .ok ⟨v, f, [], []⟩ :=
    DecodeCtts_bodyBytes ⟨v, f, [], []⟩
      ⟨hv, (Nat.lt_of_lt_of_le hf (by decide) : f < 2 ^ 32),
        fun c hc => absurd hc (List.not_mem_nil c),
        fun o ho => absurd ho (List.not_mem_nil o)⟩
      hf rfl (by simp only [List.length_nil]; omega)
  rw [EncodeSW_fresh ⟨v, f, [], []⟩ cap (Nat.le_refl _) (by rw [hsize]; exact hcap)]
  simp only []
  rw [bodyOf_fresh, List.length_append, headerBytes_length, hbody]
  refine ⟨trivial, ?_, hsize, rfl, ?_⟩
  · simp only [List.length_append, be32_length, List.length_cons, List.length_nil]
  · rw [← hbody]; exact hdec

/-- C13, at version 1 and flags 5 with a writer of exactly 16 bytes. -/
theorem empty_table_roundtrip_witness :
    ((⟨1, 5, [], []⟩ : CttsBox).EncodeSW (NewFixedSliceWriter 16)).1.buf
        = [0, 0, 0, 16, 99, 116, 116, 115, 1, 0, 0, 5, 0, 0, 0, 0] ∧
      DecodeCtts (.ok (bodyOf ((⟨1, 5, [], []⟩ : CttsBox).EncodeSW
        (NewFixedSliceWriter 16)).1)) = .ok ⟨1, 5, [], []⟩ :=
  ⟨by decide, (empty_table_roundtrip 1 5 16 (by decide) (by decide) (by decide)).2.2.2.2⟩

/-! ## Re-encoding and trailing bytes: claims C16, C17 -/

theorem uint32_int32 (u : Nat) (h : u < 2 ^ 32) : uint32 (int32 u) = u := by
  unfold int32 uint32
  rw [Nat.mod_eq_of_lt h]
  split <;> omega

theorem be32_u32At {data : List Nat} (hb : Bytes data) (off : Nat) :
    be32 (u32At data off)
      = [data.getD off 0, data.getD (off + 1) 0, data.getD (off + 2) 0, data.getD (off + 3) 0] := by
  have h0 := getD_lt_of_bytes hb off
  have h1 := getD_lt_of_bytes hb (off + 1)
  have h2 := getD_lt_of_bytes hb (off + 2)
  have h3 := getD_lt_of_bytes hb (off + 3)
  simp only [be32, u32At, Nat.shiftRight_eq_div_pow]
  have a0 : (data.getD off 0 * 2 ^ 24 + data.getD (off + 1) 0 * 2 ^ 16 +
      data.getD (off + 2) 0 * 2 ^ 8 + data.getD (off + 3) 0) / 2 ^ 24 % 256
      = data.getD off 0 := by omega
  have a1 : (data.getD off 0 * 2 ^ 24 + data.getD (off + 1) 0 * 2 ^ 16 +
      data.getD (off + 2) 0 * 2 ^ 8 + data.getD (off + 3) 0) / 2 ^ 16 % 256
      = data.getD (off + 1) 0 := by omega
  have a2 : (data.getD off 0 * 2 ^ 24 + data.getD (off + 1) 0 * 2 ^ 16 +
      data.getD (off + 2) 0 * 2 ^ 8 + data.getD (off + 3) 0) / 2 ^ 8 % 256
      = data.getD (off + 2) 0 := by omega
  have a3 : (data.getD off 0 * 2 ^ 24 + data.getD (off + 1) 0 * 2 ^ 16 +
      data.getD (off + 2) 0 * 2 ^ 8 + data.getD (off + 3) 0) % 256
      = data.getD (off + 3) 0 := by omega
  rw [a0, a1, a2, a3]

theorem take_drop_four (data : List Nat) (off n : Nat) (h : off + 4 ≤ data.length) :
    (data.drop off).take (4 + n)
      = [data.getD off 0, data.getD (off + 1) 0, data.getD (off + 2) 0, data.getD (off + 3) 0]
        ++ (data.drop (off + 4)).take n := by
  rw [List.drop_eq_getElem_cons (by omega : off < data.length),
    List.drop_eq_getElem_cons (by omega : off + 1 < data.length),
    List.drop_eq_getElem_cons (by omega : off + 1 + 1 < data.length),
    List.drop_eq_getElem_cons (by omega : off + 1 + 1 + 1 < data.length)]
  rw [show 4 + n = n + 1 + 1 + 1 + 1 by omega]
  simp only [List.take_succ_cons]
  rw [List.getD_eq_getElem _ _ (by omega : off < data.length),
    List.getD_eq_getElem _ _ (by omega : off + 1 < data.length),
    List.getD_eq_getElem _ _ (by omega : off + 2 < data.length),
    List.getD_eq_getElem _ _ (by omega : off + 3 < data.length)]
  rfl

theorem entryBytes_decoded {data : List Nat} (hb : Bytes data) :
    ∀ (k i : Nat), 8 + 8 * (i + k) ≤ data.length →
      entryBytes (countsFrom data i k) (offsetsFrom data i k)
        = (data.drop (8 + 8 * i)).take (8 * k) := by
  intro k
  induction k with
  | zero => intro i _; simp [countsFrom, offsetsFrom, entryBytes]
  | succ k ih =>
    intro i h
    rw [countsFrom_succ, offsetsFrom_succ]
    simp only [entryBytes]
    rw [uint32_int32 _ (u32At_lt hb _), be32_u32At hb, be32_u32At hb, ih (i + 1) (by omega)]
    rw [show 8 * (k + 1) = 4 + (4 + 8 * k) by omega,
      take_drop_four data (8 + 8 * i) _ (by omega),
      take_drop_four data (8 + 8 * i + 4) _ (by omega)]
    rw [show 8 + 8 * i + 4 = 12 + 8 * i by omega, show 12 + 8 * i + 4 = 8 + 8 * (i + 1) by omega]

theorem word_decoded {data : List Nat} (hb : Bytes data) :
    (((u32At data 0 >>> 24) % 256) <<< 24 % 2 ^ 32 + (u32At data 0 &&& flagsMask)) % 2 ^ 32
      = u32At data 0 := by
  have hu := u32At_lt hb 0
  have e : flagsMask = 2 ^ 24 - 1 := by decide
  rw [e, Nat.and_pow_two_sub_one_eq_mod, Nat.shiftLeft_eq, Nat.shiftRight_eq_div_pow]
  omega

/-- Encoding the table decoded from a body of exactly `8 + 8 * entryCount` bytes lays out
that body again. -/
theorem bodyBytes_decoded {data : List Nat} (hb : Bytes data)
    (hlen : data.length = 8 + 8 * u32At data 4) : bodyBytes (decoded data) = data := by
  have hu := u32At_lt hb 4
  simp only [bodyBytes, decoded, countsFrom_length, word_decoded hb, Nat.mod_eq_of_lt hu]
  rw [be32_u32At hb, be32_u32At hb, entryBytes_decoded hb _ 0 (by omega)]
  have h1 := take_drop_four data 0 (4 + 8 * u32At data 4) (by omega)
  have h2 := take_drop_four data 4 (8 * u32At data 4) (by omega)
  rw [List.drop_zero, List.take_of_length_le (by omega)] at h1
  rw [h2] at h1
  simp only [Nat.zero_add, Nat.mul_zero, Nat.add_zero] at h1 ⊢
  exact h1.symm

/-- C16: for every body of exactly `8 + 8 * entryCount` bytes, `DecodeCtts` returns a table
whose encoding by `EncodeSW`, into any fresh writer with room for `Size` bytes, has after
the box header exactly the bytes of that body, and whose `Size` is `boxHeaderSize` plus the
length of the body. -/
theorem reencode_is_identity (data : List Nat) (hb : Bytes data)
    (hlen : data.length = 8 + 8 * u32At data 4) :
    ∃ T, DecodeCtts (.ok data) = .ok T ∧ T.Size = boxHeaderSize + data.length ∧
      ∀ cap, T.Size ≤ cap →
        (T.EncodeSW (NewFixedSliceWriter cap)).2 = .ok () ∧
        bodyOf (T.EncodeSW (NewFixedSliceWriter cap)).1 = data := by
  obtain ⟨_, _, hpair, _⟩ := decoded_typed hb
  refine ⟨decoded data, DecodeCtts_ok hb (by omega), ?_, ?_⟩
  · simp only [CttsBox.Size, decoded, countsFrom_length]
    omega
  · intro cap hcap
    rw [EncodeSW_fresh _ cap (by omega) hcap]
    simp only []
    rw [bodyOf_fresh]
    exact ⟨trivial, bodyBytes_decoded hb hlen⟩

/-- C16, at a body of version 1, flags 5 and the two entries `(3, -1)` and `(2, 7)`. -/
theorem reencode_is_identity_witness :
    ∃ T, DecodeCtts (.ok [1, 0, 0, 5, 0, 0, 0, 2, 0, 0, 0, 3, 255, 255, 255, 255,
        0, 0, 0, 2, 0, 0, 0, 7]) = .ok T ∧
      T.Size = boxHeaderSize + 24 ∧
      ∀ cap, T.Size ≤ cap →
        (T.EncodeSW (NewFixedSliceWriter cap)).2 = .ok () ∧
        bodyOf (T.EncodeSW (NewFixedSliceWriter cap)).1
          = [1, 0, 0, 5, 0, 0, 0, 2, 0, 0, 0, 3, 255, 255, 255, 255, 0, 0, 0, 2, 0, 0, 0, 7] :=
  reencode_is_identity [1, 0, 0, 5, 0, 0, 0, 2, 0, 0, 0, 3, 255, 255, 255, 255,
    0, 0, 0, 2, 0, 0, 0, 7] (by decide) (by decide)

theorem getD_take (data : List Nat) (n k : Nat) (h : k < n) :
    (data.take n).getD k 0 = data.getD k 0 := by
  rw [List.getD_eq_getElem?_getD, List.getD_eq_getElem?_getD, List.getElem?_take_of_lt h]

theorem u32At_take (data : List Nat) (n off : Nat) (h : off + 4 ≤ n) :
    u32At (data.take n) off = u32At data off := by
  simp only [u32At]
  rw [getD_take data n off (by omega), getD_take data n (off + 1) (by omega),
    getD_take data n (off + 2) (by omega), getD_take data n (off + 3) (by omega)]

theorem bytes_take {data : List Nat} (hb : Bytes data) (n : Nat) : Bytes (data.take n) :=
  fun x hx => hb x (List.mem_of_mem_take hx)

theorem decoded_take (data : List Nat) (n : Nat) (h : 8 + 8 * u32At data 4 ≤ n) :
    decoded (data.take n) = decoded data := by
  have e0 := u32At_take data n 0 (by omega)
  have e4 := u32At_take data n 4 (by omega)
  simp only [decoded, e0, e4, countsFrom, offsetsFrom]
  have hc : List.map (fun j => u32At (data.take n) (8 + 8 * (0 + j))) (List.range (u32At data 4))
      = List.map (fun j => u32At data (8 + 8 * (0 + j))) (List.range (u32At data 4)) := by
    apply List.map_congr_left
    intro j hj
    rw [List.mem_range] at hj
    exact u32At_take data n _ (by omega)
  have ho : List.map (fun j => int32 (u32At (data.take n) (12 + 8 * (0 + j))))
        (List.range (u32At data 4))
      = List.map (fun j => int32 (u32At data (12 + 8 * (0 + j)))) (List.range (u32At data 4)) := by
    apply List.map_congr_left
    intro j hj
    rw [List.mem_range] at hj
    show int32 _ = int32 _
    rw [u32At_take data n _ (by omega)]
  rw [hc, ho]

/-- C17: a body of at least `8 + 8 * entryCount` bytes decodes to the table its first
`8 + 8 * entryCount` bytes alone decode to, and any second body that is as long and has
the same first `8 + 8 * entryCount` bytes decodes, without error, to the same table. -/
theorem trailing_bytes_ignored (data other : List Nat) (hb : Bytes data) (ho : Bytes other)
    (hlen : 8 + 8 * u32At data 4 ≤ data.length) (hlen2 : 8 + 8 * u32At data 4 ≤ other.length)
    (heq : data.take (8 + 8 * u32At data 4) = other.take (8 + 8 * u32At data 4)) :
    ∃ T, DecodeCtts (.ok data) = .ok T ∧
      DecodeCtts (.ok (data.take (8 + 8 * u32At data 4))) = .ok T ∧
      DecodeCtts (.ok other) = .ok T := by
  have e4 : u32At other 4 = u32At data 4 := by
    rw [← u32At_take other (8 + 8 * u32At data 4) 4 (by omega), ← heq,
      u32At_take data _ 4 (by omega)]
  have e4t : u32At (data.take (8 + 8 * u32At data 4)) 4 = u32At data 4 :=
    u32At_take data _ 4 (by omega)
  refine ⟨decoded data, DecodeCtts_ok hb hlen, ?_, ?_⟩
  · rw [DecodeCtts_ok (bytes_take hb _) (by rw [e4t, List.length_take]; omega),
      decoded_take data _ (Nat.le_refl _)]
  · rw [DecodeCtts_ok ho (by rw [e4]; exact hlen2)]
    have h1 := decoded_take other (8 + 8 * u32At data 4) (by rw [e4])
    rw [← heq, decoded_take data _ (Nat.le_refl _)] at h1
    rw [h1]

/-- C17, at a body with one entry followed by the surplus bytes 9, 9 and the same body
followed by the surplus byte 7. -/
theorem trailing_bytes_ignored_witness :
    ∃ T, DecodeCtts (.ok [0, 0, 0, 0, 0, 0, 0, 1, 0, 0, 0, 3, 0, 0, 0, 5, 9, 9]) = .ok T ∧
      DecodeCtts (.ok (List.take (8 + 8 * u32At [0, 0, 0, 0, 0, 0, 0, 1, 0, 0, 0, 3, 0, 0, 0, 5,
        9, 9] 4) [0, 0, 0, 0, 0, 0, 0, 1, 0, 0, 0, 3, 0, 0, 0, 5, 9, 9])) = .ok T ∧
      DecodeCtts (.ok [0, 0, 0, 0, 0, 0, 0, 1, 0, 0, 0, 3, 0, 0, 0, 5, 7]) = .ok T :=
  trailing_bytes_ignored [0, 0, 0, 0, 0, 0, 0, 1, 0, 0, 0, 3, 0, 0, 0, 5, 9, 9]
    [0, 0, 0, 0, 0, 0, 0, 1, 0, 0, 0, 3, 0, 0, 0, 5, 7] (by decide) (by decide) (by decide)
    (by decide) (by decide)

/-! ## The encoder as a sequence of writes -/

theorem WriteBytes_err (sw : SliceWriter) (bs : List Nat) (e : GoError)
    (herr : sw.accError = some e) : sw.WriteBytes bs = sw := by
  simp only [SliceWriter.WriteBytes, herr]

theorem writeChunks_err (chunks : List (List Nat)) :
    ∀ (sw : SliceWriter) (e : GoError), sw.accError = some e → writeChunks sw chunks = sw := by
  induction chunks with
  | nil => intro sw e _; rfl
  | cons c cs ih =>
    intro sw e herr
    simp only [writeChunks, List.foldl_cons]
    rw [WriteBytes_err sw c e herr]
    exact ih sw e herr

theorem writeChunks_cons (sw : SliceWriter) (c : List Nat) (cs : List (List Nat)) :
    writeChunks sw (c :: cs) = writeChunks (sw.WriteBytes c) cs := by
  simp only [writeChunks, List.foldl_cons]

theorem writeEntries_eq_chunks :
    ∀ (cs : List Nat) (os : List Int) (sw : SliceWriter),
      writeEntries sw cs os = writeChunks sw (entryChunks cs os) := by
  intro cs
  induction cs with
  | nil => intro os sw; cases os <;> simp only [writeEntries, entryChunks, writeChunks, List.foldl_nil]
  | cons c cs ih =>
    intro os sw
    cases os with
    | nil => simp only [writeEntries, entryChunks, writeChunks, List.foldl_nil]
    | cons o os =>
      simp only [writeEntries, entryChunks, writeChunks_cons]
      exact ih os _

theorem encodeEntries_eq (b : CttsBox) :
    ∀ (cs : List Nat) (i : Nat) (sw : SliceWriter), i + cs.length ≤ b.SampleOffset.length →
      encodeEntries b cs i sw = (writeEntries sw cs (b.SampleOffset.drop i), true) := by
  intro cs
  induction cs with
  | nil => intro i sw _; simp only [encodeEntries, writeEntries]
  | cons c cs ih =>
    intro i sw hlen
    simp only [List.length_cons] at hlen
    have hi : i < b.SampleOffset.length := by omega
    rw [List.drop_eq_getElem_cons hi]
    simp only [encodeEntries, List.getElem?_eq_getElem hi, writeEntries]
    exact ih (i + 1) _ (by omega)

theorem encodeEntries_panic (b : CttsBox) :
    ∀ (cs : List Nat) (i : Nat) (sw : SliceWriter), i ≤ b.SampleOffset.length →
      b.SampleOffset.length < i + cs.length →
      ∃ c, cs[b.SampleOffset.length - i]? = some c ∧
        encodeEntries b cs i sw
          = ((writeEntries sw cs (b.SampleOffset.drop i)).WriteUint32 c, false) := by
  intro cs
  induction cs with
  | nil => intro i sw h1 h2; simp only [List.length_nil] at h2; omega
  | cons c cs ih =>
    intro i sw h1 h2
    simp only [List.length_cons] at h2
    by_cases hi : i < b.SampleOffset.length
    · obtain ⟨c', hc', he⟩ := ih (i + 1) ((sw.WriteUint32 c).WriteInt32 b.SampleOffset[i])
        (by omega) (by omega)
      refine ⟨c', ?_, ?_⟩
      · rw [show b.SampleOffset.length - i = (b.SampleOffset.length - (i + 1)) + 1 by omega,
          List.getElem?_cons_succ]
        exact hc'
      · rw [List.drop_eq_getElem_cons hi]
        simp only [encodeEntries, List.getElem?_eq_getElem hi, writeEntries]
        exact he
    · have hi0 : b.SampleOffset.length - i = 0 := by omega
      refine ⟨c, by rw [hi0]; exact List.getElem?_cons_zero, ?_⟩
      rw [List.drop_eq_nil_of_le (by omega)]
      simp only [encodeEntries, List.getElem?_eq_none (by omega : b.SampleOffset.length ≤ i),
        writeEntries]

/-- With at least as many offsets as counts, `EncodeSW` is the sequence of writes of
`allChunks`, and it returns the error the writer has accumulated. -/
theorem EncodeSW_chunks (b : CttsBox) (sw : SliceWriter)
    (hlen : b.SampleCount.length ≤ b.SampleOffset.length) :
    b.EncodeSW sw = (writeChunks sw (allChunks b),
      match (writeChunks sw (allChunks b)).accError with
      | some e => .error e
      | none => .ok ()) := by
  simp only [CttsBox.EncodeSW, EncodeHeaderSW, SliceWriter.AccError, SliceWriter.WriteUint32,
    SliceWriter.WriteString, allChunks, writeChunks_cons]
  rw [encodeEntries_eq b b.SampleCount 0 _ (by omega), List.drop_zero, writeEntries_eq_chunks]
  simp only []
  cases (writeChunks
    ((((sw.WriteBytes (be32 (b.Size % 2 ^ 32))).WriteBytes
      (b.boxType.toList.map Char.toNat)).WriteBytes
      (be32 (((b.Version <<< 24) % 2 ^ 32 + b.Flags) % 2 ^ 32))).WriteBytes
      (be32 (b.SampleCount.length % 2 ^ 32)))
    (entryChunks b.SampleCount b.SampleOffset)).accError <;> rfl

theorem writeChunks_append (a c : List (List Nat)) (sw : SliceWriter) :
    writeChunks sw (a ++ c) = writeChunks (writeChunks sw a) c := by
  simp only [writeChunks, List.foldl_append]

/-- With fewer offsets than counts, `EncodeSW` panics in every writer, after the writes of
`allChunks` (header, word, count, and the entries that have an offset) and of the count
of entry `len(SampleOffset)`. -/
theorem EncodeSW_panics (b : CttsBox) (sw : SliceWriter)
    (hlen : b.SampleOffset.length < b.SampleCount.length) :
    ∃ c, b.SampleCount[b.SampleOffset.length]? = some c ∧
      b.EncodeSW sw = (writeChunks sw (allChunks b ++ [be32 c]), .panic) := by
  obtain ⟨c, hc, he⟩ := encodeEntries_panic b b.SampleCount 0
    ((((sw.WriteBytes (be32 (b.Size % 2 ^ 32))).WriteBytes
      (b.boxType.toList.map Char.toNat)).WriteBytes
      (be32 (((b.Version <<< 24) % 2 ^ 32 + b.Flags) % 2 ^ 32))).WriteBytes
      (be32 (b.SampleCount.length % 2 ^ 32))) (by omega) (by omega)
  rw [Nat.sub_zero] at hc
  refine ⟨c, hc, ?_⟩
  simp only [CttsBox.EncodeSW, EncodeHeaderSW, SliceWriter.WriteUint32, SliceWriter.WriteString,
    he]
  rw [List.drop_zero, writeEntries_eq_chunks, writeChunks_append]
  simp only [allChunks, writeChunks, List.foldl_cons, List.foldl_nil]

theorem writeChunks_room (chunks : List (List Nat)) :
    ∀ (sw : SliceWriter), sw.accError = none → (∀ c ∈ chunks, c.length = 4) →
      sw.buf.length + 4 * chunks.length ≤ sw.cap →
      writeChunks sw chunks = ⟨sw.buf ++ chunks.flatten, sw.cap, none⟩ := by
  induction chunks with
  | nil =>
    intro sw herr _ _
    cases sw
    simp only at herr
    simp only [writeChunks, List.foldl_nil, List.flatten_nil, List.append_nil, herr]
  | cons c cs ih =>
    intro sw herr h4 hroom
    simp only [List.length_cons] at hroom
    have hc : c.length = 4 := h4 c (List.mem_cons_self _ _)
    rw [writeChunks_cons, WriteBytes_ok sw c herr (by omega),
      ih _ rfl (fun x hx => h4 x (List.mem_cons_of_mem _ hx))
        (by simp only [List.length_append]; omega)]
    simp only [List.flatten_cons, List.append_assoc]

theorem writeChunks_short (chunks : List (List Nat)) :
    ∀ (sw : SliceWriter), sw.accError = none → (∀ c ∈ chunks, c.length = 4) →
      sw.buf.length ≤ sw.cap → sw.cap < sw.buf.length + 4 * chunks.length →
      writeChunks sw chunks
        = ⟨sw.buf ++ chunks.flatten.take (4 * ((sw.cap - sw.buf.length) / 4)), sw.cap,
            some GoError.sliceWrite⟩ := by
  induction chunks with
  | nil => intro sw _ _ h1 h2; simp only [List.length_nil] at h2; omega
  | cons c cs ih =>
    intro sw herr h4 hinv hshort
    simp only [List.length_cons] at hshort
    have hc : c.length = 4 := h4 c (List.mem_cons_self _ _)
    rw [writeChunks_cons]
    by_cases hfit : sw.buf.length + 4 ≤ sw.cap
    · rw [WriteBytes_ok sw c herr (by omega),
        ih _ rfl (fun x hx => h4 x (List.mem_cons_of_mem _ hx))
          (by simp only [List.length_append]; omega)
          (by simp only [List.length_append]; omega)]
      simp only [List.length_append, List.flatten_cons, hc]
      rw [show 4 * ((sw.cap - sw.buf.length) / 4)
          = c.length + 4 * ((sw.cap - (sw.buf.length + 4)) / 4) by omega,
        List.take_append, List.append_assoc]
    · have hover : sw.buf.length + c.length > sw.cap := by omega
      have hw : sw.WriteBytes c = ⟨sw.buf, sw.cap, some GoError.sliceWrite⟩ := by
        simp only [SliceWriter.WriteBytes, herr, hover, if_true]
      rw [hw, writeChunks_err cs _ GoError.sliceWrite rfl,
        show (sw.cap - sw.buf.length) / 4 = 0 by omega]
      simp only [Nat.mul_zero, List.take_zero, List.append_nil]

theorem entryChunks_flatten :
    ∀ (cs : List Nat) (os : List Int), (entryChunks cs os).flatten = entryBytes cs os := by
  intro cs
  induction cs with
  | nil => intro os; cases os <;> simp only [entryChunks, entryBytes, List.flatten_nil]
  | cons c cs ih =>
    intro os
    cases os with
    | nil => simp only [entryChunks, entryBytes, List.flatten_nil]
    | cons o os => simp only [entryChunks, entryBytes, List.flatten_cons, ih os]

theorem entryChunks_four :
    ∀ (cs : List Nat) (os : List Int), ∀ c ∈ entryChunks cs os, c.length = 4 := by
  intro cs
  induction cs with
  | nil => intro os c hc; cases os <;> simp [entryChunks] at hc
  | cons c0 cs ih =>
    intro os c hc
    cases os with
    | nil => simp [entryChunks] at hc
    | cons o os =>
      simp only [entryChunks, List.mem_cons] at hc
      rcases hc with rfl | rfl | hc
      · rfl
      · rfl
      · exact ih os c hc

theorem entryChunks_length :
    ∀ (cs : List Nat) (os : List Int), cs.length ≤ os.length →
      (entryChunks cs os).length = 2 * cs.length := by
  intro cs
  induction cs with
  | nil => intro os _; cases os <;> simp only [entryChunks, List.length_nil]
  | cons c cs ih =>
    intro os h
    cases os with
    | nil => simp at h
    | cons o os =>
      simp only [List.length_cons] at h
      simp only [entryChunks, List.length_cons, ih os (by omega)]
      omega

theorem allChunks_flatten (b : CttsBox) :
    (allChunks b).flatten = headerBytes b ++ bodyBytes b := by
  simp only [allChunks, List.flatten_cons, entryChunks_flatten, headerBytes, bodyBytes,
    List.append_assoc]

theorem allChunks_four (b : CttsBox) : ∀ c ∈ allChunks b, c.length = 4 := by
  intro c hc
  simp only [allChunks, List.mem_cons] at hc
  rcases hc with rfl | rfl | rfl | rfl | hc
  · rfl
  · rfl
  · rfl
  · rfl
  · exact entryChunks_four _ _ c hc

theorem allChunks_length (b : CttsBox) (hlen : b.SampleCount.length ≤ b.SampleOffset.length) :
    4 * (allChunks b).length = b.Size := by
  simp only [allChunks, List.length_cons, entryChunks_length _ _ hlen, CttsBox.Size,
    boxHeaderSize]
  omega

/-! ## Errors of the writers and the count field: claims C11, C12 -/

theorem Encode_not_ok (b : CttsBox) (w : Writer)
    (h : (b.EncodeSW (NewFixedSliceWriter b.Size)).2 ≠ .ok ()) :
    b.Encode w = (w, (b.EncodeSW (NewFixedSliceWriter b.Size)).2) := by
  simp only [CttsBox.Encode]
  rcases hres : b.EncodeSW (NewFixedSliceWriter b.Size) with ⟨sw1, out⟩
  rw [hres] at h
  cases out with
  | ok u => exact absurd rfl h
  | error e => rfl
  | panic => rfl

theorem Encode_pairs (b : CttsBox) (w : Writer)
    (hlen : b.SampleCount.length ≤ b.SampleOffset.length) :
    b.Encode w = ((w.Write (headerBytes b ++ bodyBytes b)).1,
      match (w.Write (headerBytes b ++ bodyBytes b)).2 with
      | some err => .error err
      | none => .ok ()) := by
  simp only [CttsBox.Encode]
  rw [EncodeSW_fresh b b.Size hlen (Nat.le_refl _)]
  simp only [SliceWriter.Bytes]
  generalize w.Write (headerBytes b ++ bodyBytes b) = r
  rcases r with ⟨w1, _ | e⟩ <;> rfl

/-- C11: for a table with an offset for every count, (1) `EncodeSW` into a writer that has
already met an error `e` writes nothing and returns `e`; (2) `EncodeSW` into a writer
without error whose room is less than `Size` bytes returns the writer's error, and the
writer holds exactly the 4-byte writes that fitted before the first one that did not, and
nothing after it; (3) for any table, when `EncodeSW` into the buffer of `Encode` does not
succeed, `Encode` returns that outcome and leaves the destination as it was; (4) otherwise
`Encode` hands the complete box to the destination in one `Write` and returns the error
of that call unchanged. -/
theorem encode_error_propagation (b : CttsBox) (sw : SliceWriter) (w : Writer) :
    (b.SampleCount.length ≤ b.SampleOffset.length → ∀ e, sw.accError = some e →
      b.EncodeSW sw = (sw, .error e)) ∧
    (b.SampleCount.length ≤ b.SampleOffset.length → sw.accError = none →
      sw.buf.length ≤ sw.cap → sw.cap < sw.buf.length + b.Size →
      b.EncodeSW sw
        = (⟨sw.buf ++ (headerBytes b ++ bodyBytes b).take (4 * ((sw.cap - sw.buf.length) / 4)),
            sw.cap, some GoError.sliceWrite⟩, .error GoError.sliceWrite)) ∧
    ((b.EncodeSW (NewFixedSliceWriter b.Size)).2 ≠ .ok () →
      b.Encode w = (w, (b.EncodeSW (NewFixedSliceWriter b.Size)).2)) ∧
    (b.SampleCount.length ≤ b.SampleOffset.length →
      b.Encode w = ((w.Write (headerBytes b ++ bodyBytes b)).1,
        match (w.Write (headerBytes b ++ bodyBytes b)).2 with
        | some err => .error err
        | none => .ok ())) := by
  refine ⟨?_, ?_, Encode_not_ok b w, Encode_pairs b w⟩
  · intro hlen e herr
    rw [EncodeSW_chunks b sw hlen, writeChunks_err _ sw e herr, herr]
  · intro hlen herr hinv hshort
    rw [EncodeSW_chunks b sw hlen,
      writeChunks_short (allChunks b) sw herr (allChunks_four b) hinv
        (by rw [allChunks_length b hlen]; exact hshort),
      allChunks_flatten]

/-- C11, at the table of entries `(3, -1)`, `(2, 7)`: a writer of 10 bytes keeps the 8
bytes of the header and returns its error; a destination that takes 5 bytes and fails
with error 7 makes `Encode` return error 7; and a table with a count but no offset makes
`Encode` panic with the destination untouched. -/
theorem encode_error_propagation_witness :
    (⟨1, 5, [3, 2], [-1, 7]⟩ : CttsBox).EncodeSW (NewFixedSliceWriter 10)
        = (⟨[0, 0, 0, 32, 99, 116, 116, 115], 10, some GoError.sliceWrite⟩,
            .error GoError.sliceWrite) ∧
      ((⟨1, 5, [3, 2], [-1, 7]⟩ : CttsBox).Encode
          ⟨[], fun _ => (5, some (GoError.destWrite 7))⟩).2 = .error (GoError.destWrite 7) ∧
      ((⟨1, 5, [3, 2], [-1, 7]⟩ : CttsBox).Encode
          ⟨[], fun _ => (5, some (GoError.destWrite 7))⟩).1.out = [0, 0, 0, 32, 99] ∧
      ((⟨0, 0, [1], []⟩ : CttsBox).Encode ⟨[42], fun p => (p.length, none)⟩).2 = .panic ∧
      ((⟨0, 0, [1], []⟩ : CttsBox).Encode ⟨[42], fun p => (p.length, none)⟩).1.out = [42] := by
  have h := encode_error_propagation ⟨1, 5, [3, 2], [-1, 7]⟩ (NewFixedSliceWriter 10)
    ⟨[], fun _ => (5, some (GoError.destWrite 7))⟩
  have h2 := h.2.1 (by decide) (by decide) (by decide) (by decide)
  have h4 := h.2.2.2 (by decide)
  have g := (encode_error_propagation ⟨0, 0, [1], []⟩ (NewFixedSliceWriter 0)
    ⟨[42], fun p => (p.length, none)⟩).2.2.1 (by decide)
  refine ⟨?_, ?_, ?_, ?_, ?_⟩
  · rw [h2]; decide
  · rw [h4]; decide
  · rw [h4]; decide
  · rw [g]; decide
  · rw [g]

/-- C12: every table `DecodeCtts` returns has as many counts and as many offsets as the
count field of the body says, and flags below `2 ^ 24`; and for a table of the spec's data
model, with `N` paired entries and `N` within the 32-bit count field, `EncodeSW` writes
the count field `N`, followed by the bytes of exactly `N` entries. The other operations
take the table as an argument and return no table. -/
theorem entry_count_invariant (data : List Nat) (T b : CttsBox) (sw : SliceWriter)
    (hb : Bytes data) (hdec : DecodeCtts (.ok data) = .ok T)
    (hpair : b.SampleOffset.length = b.SampleCount.length)
    (hn : b.SampleCount.length < 2 ^ 32) (herr : sw.accError = none)
    (hroom : sw.buf.length + b.Size ≤ sw.cap) :
    (T.SampleCount.length = u32At data 4 ∧ T.SampleOffset.length = u32At data 4 ∧
      T.Flags < 2 ^ 24) ∧
    ∃ hdr word field entries, (b.EncodeSW sw).2 = .ok () ∧
      (b.EncodeSW sw).1.buf = sw.buf ++ (hdr ++ (word ++ (field ++ entries))) ∧
      hdr.length = boxHeaderSize ∧ word.length = 4 ∧
      Uint32 field = some b.SampleCount.length ∧
      entries = entryBytes b.SampleCount b.SampleOffset ∧
      entries.length = 8 * b.SampleCount.length := by
  obtain ⟨_, rfl⟩ := DecodeCtts_eq_ok hb hdec
  obtain ⟨_, hf, _, _⟩ := decoded_typed hb
  refine ⟨⟨by simp only [decoded, countsFrom_length],
    by simp only [decoded, offsetsFrom_length], hf⟩, ?_⟩
  rw [EncodeSW_ok b sw (by omega) herr hroom]
  exact ⟨headerBytes b, be32 (((b.Version <<< 24) % 2 ^ 32 + b.Flags) % 2 ^ 32),
    be32 b.SampleCount.length, entryBytes b.SampleCount b.SampleOffset, rfl,
    by simp only [bodyBytes, Nat.mod_eq_of_lt hn],
    headerBytes_length b, be32_length _, Uint32_be32 _ hn, rfl,
    entryBytes_length _ _ (by omega)⟩

/-- C12, at a body with two entries and at the table of entries `(3, -1)`, `(2, 7)` written
into a fresh writer of 32 bytes. -/
theorem entry_count_invariant_witness :
    ((⟨1, 5, [3, 2], [-1, 7]⟩ : CttsBox).SampleCount.length
        = u32At [1, 0, 0, 5, 0, 0, 0, 2, 0, 0, 0, 3, 255, 255, 255, 255, 0, 0, 0, 2, 0, 0, 0, 7] 4 ∧
      (⟨1, 5, [3, 2], [-1, 7]⟩ : CttsBox).SampleOffset.length
        = u32At [1, 0, 0, 5, 0, 0, 0, 2, 0, 0, 0, 3, 255, 255, 255, 255, 0, 0, 0, 2, 0, 0, 0, 7] 4 ∧
      (⟨1, 5, [3, 2], [-1, 7]⟩ : CttsBox).Flags < 2 ^ 24) ∧
    ∃ hdr word field entries,
      ((⟨1, 5, [3, 2], [-1, 7]⟩ : CttsBox).EncodeSW (NewFixedSliceWriter 32)).2 = .ok () ∧
      ((⟨1, 5, [3, 2], [-1, 7]⟩ : CttsBox).EncodeSW (NewFixedSliceWriter 32)).1.buf
        = (NewFixedSliceWriter 32).buf ++ (hdr ++ (word ++ (field ++ entries))) ∧
      hdr.length = boxHeaderSize ∧ word.length = 4 ∧
      Uint32 field = some (⟨1, 5, [3, 2], [-1, 7]⟩ : CttsBox).SampleCount.length ∧
      entries = entryBytes [3, 2] [-1, 7] ∧
      entries.length = 8 * (⟨1, 5, [3, 2], [-1, 7]⟩ : CttsBox).SampleCount.length :=
  entry_count_invariant
    [1, 0, 0, 5, 0, 0, 0, 2, 0, 0, 0, 3, 255, 255, 255, 255, 0, 0, 0, 2, 0, 0, 0, 7]
    ⟨1, 5, [3, 2], [-1, 7]⟩ ⟨1, 5, [3, 2], [-1, 7]⟩ (NewFixedSliceWriter 32)
    (by decide) (by decide) (by decide) (by decide) (by decide) (by decide)

/-! ## Diagnostic listing: claim C14 -/

theorem infoDumper_write_ok (bd : infoDumper) (line : String) (herr : bd.err = none) :
    bd.write line = ⟨bd.indent, bd.lines ++ [bd.indent ++ line], none⟩ := by
  simp only [infoDumper.write, herr]

theorem infoEntries_ok (b : CttsBox) :
    ∀ (cs : List Nat) (i : Nat) (bd : infoDumper), bd.err = none →
      i + cs.length ≤ b.SampleOffset.length →
      infoEntries b cs i bd
        = (⟨bd.indent, bd.lines ++ entryLines bd.indent cs (b.SampleOffset.drop i) (i + 1),
            none⟩, true) := by
  intro cs
  induction cs with
  | nil =>
    intro i bd herr _
    cases bd
    simp only at herr
    simp only [infoEntries, entryLines, List.append_nil, herr]
  | cons c cs ih =>
    intro i bd herr hlen
    simp only [List.length_cons] at hlen
    have hi : i < b.SampleOffset.length := by omega
    rw [List.drop_eq_getElem_cons hi]
    simp only [infoEntries, List.getElem?_eq_getElem hi, entryLines]
    rw [infoDumper_write_ok bd _ herr, ih (i + 1) _ rfl (by omega)]
    simp only [List.append_assoc, List.singleton_append]

theorem infoEntries_lines (b : CttsBox) :
    ∀ (cs : List Nat) (i : Nat) (bd : infoDumper), bd.err = none →
      ∃ rest, (infoEntries b cs i bd).1.lines = bd.lines ++ rest := by
  intro cs
  induction cs with
  | nil => intro i bd _; exact ⟨[], by simp only [infoEntries, List.append_nil]⟩
  | cons c cs ih =>
    intro i bd herr
    simp only [infoEntries]
    cases hso : b.SampleOffset[i]? with
    | none => exact ⟨[], by simp only [List.append_nil]⟩
    | some o =>
      simp only []
      rw [infoDumper_write_ok bd _ herr]
      obtain ⟨rest, hrest⟩ := ih (i + 1)
        ⟨bd.indent, bd.lines ++ [bd.indent ++ entryLine (i + 1) c o], none⟩ rfl
      exact ⟨(bd.indent ++ entryLine (i + 1) c o) :: rest, by
        rw [hrest]; simp only [List.append_assoc, List.singleton_append]⟩

theorem entryLines_length (indent : String) :
    ∀ (cs : List Nat) (os : List Int) (pos : Nat), cs.length ≤ os.length →
      (entryLines indent cs os pos).length = cs.length := by
  intro cs
  induction cs with
  | nil => intro os pos _; cases os <;> simp only [entryLines, List.length_nil]
  | cons c cs ih =>
    intro os pos h
    cases os with
    | nil => simp at h
    | cons o os =>
      simp only [List.length_cons] at h
      simp only [entryLines, List.length_cons, ih os (pos + 1) (by omega)]

/-- C14: with a dumper that has met no error, `Info` always writes the summary line with
the number of entries, whatever the level and the table; at a level of 0 or less it writes
nothing else; at a level of 1 or more, for a table with an offset for every count, it
writes after the summary exactly one line per entry, in order, with the one-based
position, the count and the offset of the entry. The table is an argument only and no
table is returned. -/
theorem info_listing (b : CttsBox) (bd : infoDumper) (level : Int) (herr : bd.err = none) :
    (∃ rest, (b.Info bd level).1.lines
        = bd.lines ++ (bd.indent ++ summaryLine b.SampleCount.length) :: rest) ∧
    (¬ level > 0 → b.Info bd level
        = (⟨bd.indent, bd.lines ++ [bd.indent ++ summaryLine b.SampleCount.length], none⟩,
            .ok ())) ∧
    (level > 0 → b.SampleCount.length ≤ b.SampleOffset.length →
      b.Info bd level
        = (⟨bd.indent, bd.lines ++ (bd.indent ++ summaryLine b.SampleCount.length) ::
              entryLines bd.indent b.SampleCount b.SampleOffset 1, none⟩, .ok ()) ∧
      (entryLines bd.indent b.SampleCount b.SampleOffset 1).length = b.SampleCount.length) := by
  have hw := infoDumper_write_ok bd (summaryLine b.SampleCount.length) herr
  refine ⟨?_, ?_, ?_⟩
  · by_cases hl : level > 0
    · obtain ⟨rest, hrest⟩ := infoEntries_lines b b.SampleCount 0
        ⟨bd.indent, bd.lines ++ [bd.indent ++ summaryLine b.SampleCount.length], none⟩ rfl
      refine ⟨rest, ?_⟩
      simp only [CttsBox.Info, hl, if_true, hw]
      rcases hres : infoEntries b b.SampleCount 0
        ⟨bd.indent, bd.lines ++ [bd.indent ++ summaryLine b.SampleCount.length], none⟩
        with ⟨bd2, flag⟩
      rw [hres] at hrest
      simp only at hrest
      have hl2 : bd2.lines
          = bd.lines ++ (bd.indent ++ summaryLine b.SampleCount.length) :: rest := by
        rw [hrest]; simp only [List.append_assoc, List.singleton_append]
      cases flag with
      | false => exact hl2
      | true =>
        simp only []
        cases bd2.err <;> exact hl2
    · exact ⟨[], by simp only [CttsBox.Info, hl, if_false, hw]⟩
  · intro hl
    simp only [CttsBox.Info, hl, if_false, hw]
  · intro hl hlen
    refine ⟨?_, entryLines_length _ _ _ 1 hlen⟩
    simp only [CttsBox.Info, hl, if_true, hw]
    rw [infoEntries_ok b b.SampleCount 0 _ rfl (by omega)]
    simp only [List.drop_zero, List.append_assoc, List.singleton_append, Nat.zero_add]

/-- C14, at the table `[(3, 100), (2, -50)]` with an empty indent: the three lines at
level 1, and the summary line alone at level 0. -/
theorem info_listing_witness :
    (⟨0, 0, [3, 2], [100, -50]⟩ : CttsBox).Info ⟨"", [], none⟩ 1
        = (⟨"", [" - sampleCount: 2", " - entry[1]: sampleCount=3 sampleOffset=100",
            " - entry[2]: sampleCount=2 sampleOffset=-50"], none⟩, .ok ()) ∧
      (⟨0, 0, [3, 2], [100, -50]⟩ : CttsBox).Info ⟨"", [], none⟩ 0
        = (⟨"", [" - sampleCount: 2"], none⟩, .ok ()) := by
  have h1 := ((info_listing ⟨0, 0, [3, 2], [100, -50]⟩ ⟨"", [], none⟩ 1 rfl).2.2
    (by decide) (by decide)).1
  have h0 := (info_listing ⟨0, 0, [3, 2], [100, -50]⟩ ⟨"", [], none⟩ 0 rfl).2.1 (by decide)
  refine ⟨?_, ?_⟩
  · rw [h1]; decide
  · rw [h0]; decide

/-! ## Counts without offsets: claim C18 -/

theorem resolveLoop_run_any (b : CttsBox) :
    ∀ (cs : List Nat) (i nr : Nat), nr < cs.sum →
      ∃ j, j < cs.length ∧ (cs.take j).sum ≤ nr ∧ nr < (cs.take (j + 1)).sum ∧
        resolveLoop b cs i nr = (match b.SampleOffset[i + j]? with
          | some o => .ok o
          | none => .panic) := by
  intro cs
  induction cs with
  | nil => intro i nr h; simp at h
  | cons c cs ih =>
    intro i nr h
    simp only [List.sum_cons] at h
    by_cases hc : nr ≥ c
    · obtain ⟨j, h0, h1, h2, h3⟩ := ih (i + 1) (nr - c) (by omega)
      refine ⟨j + 1, by simp only [List.length_cons]; omega, ?_, ?_, ?_⟩
      · simp only [List.take_succ_cons, List.sum_cons]; omega
      · simp only [List.take_succ_cons, List.sum_cons]; omega
      · simp only [resolveLoop, hc, if_true]
        rw [h3, show i + 1 + j = i + (j + 1) by omega]
    · refine ⟨0, by simp only [List.length_cons]; omega, by simp, by simp; omega, ?_⟩
      simp only [resolveLoop, hc, if_false, Nat.add_zero]
      cases b.SampleOffset[i]? <;> rfl

theorem resolveLoop_congr (b b2 : CttsBox) :
    ∀ (cs : List Nat) (i nr : Nat),
      (∀ j, j < cs.length → b.SampleOffset[i + j]? = b2.SampleOffset[i + j]?) →
      resolveLoop b cs i nr = resolveLoop b2 cs i nr := by
  intro cs
  induction cs with
  | nil => intro i nr _; rfl
  | cons c cs ih =>
    intro i nr h
    simp only [resolveLoop]
    by_cases hc : nr ≥ c
    · simp only [hc, if_true]
      exact ih (i + 1) (nr - c) (fun j hj => by
        have := h (j + 1) (by simp only [List.length_cons]; omega)
        rw [show i + 1 + j = i + (j + 1) by omega]; exact this)
    · simp only [hc, if_false]
      have := h 0 (by simp only [List.length_cons]; omega)
      rw [Nat.add_zero] at this
      rw [this]

theorem entryChunks_take :
    ∀ (cs : List Nat) (os : List Int),
      entryChunks cs (os.take cs.length) = entryChunks cs os := by
  intro cs
  induction cs with
  | nil => intro os; cases os <;> simp only [entryChunks, List.length_nil, List.take_zero, List.take_nil]
  | cons c cs ih =>
    intro os
    cases os with
    | nil => simp only [List.take_nil, entryChunks]
    | cons o os => simp only [List.length_cons, List.take_succ_cons, entryChunks, ih os]

theorem trimmed_size (b : CttsBox) : b.trimmed.Size = b.Size := by
  simp only [CttsBox.Size, CttsBox.trimmed]

theorem allChunks_trimmed (b : CttsBox) : allChunks b.trimmed = allChunks b := by
  simp only [allChunks, trimmed_size]
  simp only [CttsBox.trimmed, CttsBox.boxType, entryChunks_take]

theorem EncodeSW_trimmed (b : CttsBox) (sw : SliceWriter)
    (hlen : b.SampleCount.length ≤ b.SampleOffset.length) :
    b.EncodeSW sw = b.trimmed.EncodeSW sw := by
  have hlen2 : b.trimmed.SampleCount.length ≤ b.trimmed.SampleOffset.length := by
    simp only [CttsBox.trimmed, List.length_take]; omega
  rw [EncodeSW_chunks b sw hlen, EncodeSW_chunks b.trimmed sw hlen2, allChunks_trimmed]

theorem EncodeSW_no_panic (b : CttsBox) (sw : SliceWriter)
    (hlen : b.SampleCount.length ≤ b.SampleOffset.length) : (b.EncodeSW sw).2 ≠ .panic := by
  rw [EncodeSW_chunks b sw hlen]
  simp only []
  cases (writeChunks sw (allChunks b)).accError <;> simp

theorem entryChunks_length_short :
    ∀ (cs : List Nat) (os : List Int), os.length ≤ cs.length →
      (entryChunks cs os).length = 2 * os.length := by
  intro cs
  induction cs with
  | nil => intro os h; cases os with
    | nil => simp only [entryChunks, List.length_nil]
    | cons o os => simp at h
  | cons c cs ih =>
    intro os h
    cases os with
    | nil => simp only [entryChunks, List.length_nil]
    | cons o os =>
      simp only [List.length_cons] at h
      simp only [entryChunks, List.length_cons, ih os (by omega)]
      omega

theorem entryBytes_length_short :
    ∀ (cs : List Nat) (os : List Int), os.length ≤ cs.length →
      (entryBytes cs os).length = 8 * os.length := by
  intro cs os h
  have h4 := entryChunks_four cs os
  have hl := entryChunks_length_short cs os h
  rw [← entryChunks_flatten]
  have key : ∀ (chunks : List (List Nat)), (∀ c ∈ chunks, c.length = 4) →
      chunks.flatten.length = 4 * chunks.length := by
    intro chunks
    induction chunks with
    | nil => intro _; rfl
    | cons c cs ih =>
      intro hc
      simp only [List.flatten_cons, List.length_append, List.length_cons,
        hc c (List.mem_cons_self _ _), ih (fun x hx => hc x (List.mem_cons_of_mem _ hx))]
      omega
  rw [key _ h4, hl]
  omega

theorem EncodeSW_fresh_panic (b : CttsBox) (cap : Nat)
    (hlen : b.SampleOffset.length < b.SampleCount.length) (hcap : b.Size ≤ cap) :
    ∃ c, b.SampleCount[b.SampleOffset.length]? = some c ∧
      b.EncodeSW (NewFixedSliceWriter cap)
        = (⟨headerBytes b ++ (bodyBytes b ++ be32 c), cap, none⟩, .panic) := by
  have hsize : b.Size = 8 + 8 + b.SampleCount.length * 8 := rfl
  have htype : (b.boxType.toList.map Char.toNat).length = 4 := rfl
  have h1 := WriteBytes_ok ⟨[], cap, none⟩ (be32 (b.Size % 2 ^ 32)) rfl
    (by simp only [List.length_nil, be32_length]; omega)
  have h2 := WriteBytes_ok ⟨[] ++ be32 (b.Size % 2 ^ 32), cap, none⟩
    (b.boxType.toList.map Char.toNat) rfl
    (by simp only [List.length_append, List.length_nil, be32_length, htype]; omega)
  have h3 := WriteBytes_ok
    ⟨[] ++ be32 (b.Size % 2 ^ 32) ++ b.boxType.toList.map Char.toNat, cap, none⟩
    (be32 (((b.Version <<< 24) % 2 ^ 32 + b.Flags) % 2 ^ 32)) rfl
    (by simp only [List.length_append, List.length_nil, be32_length, htype]; omega)
  have h4 := WriteBytes_ok
    ⟨[] ++ be32 (b.Size % 2 ^ 32) ++ b.boxType.toList.map Char.toNat ++
      be32 (((b.Version <<< 24) % 2 ^ 32 + b.Flags) % 2 ^ 32), cap, none⟩
    (be32 (b.SampleCount.length % 2 ^ 32)) rfl
    (by simp only [List.length_append, List.length_nil, be32_length, htype]; omega)
  obtain ⟨c, hc, he⟩ := encodeEntries_panic b b.SampleCount 0
    ⟨[] ++ be32 (b.Size % 2 ^ 32) ++ b.boxType.toList.map Char.toNat ++
      be32 (((b.Version <<< 24) % 2 ^ 32 + b.Flags) % 2 ^ 32) ++
      be32 (b.SampleCount.length % 2 ^ 32), cap, none⟩ (by omega) (by omega)
  rw [Nat.sub_zero] at hc
  rw [List.drop_zero, writeEntries_eq_chunks,
    writeChunks_room _ _ rfl (entryChunks_four _ _)
      (by simp only [List.length_append, List.length_nil, be32_length, htype,
            entryChunks_length_short _ _ (Nat.le_of_lt hlen)]; omega),
    entryChunks_flatten] at he
  have h5 := WriteBytes_ok
    ⟨[] ++ be32 (b.Size % 2 ^ 32) ++ b.boxType.toList.map Char.toNat ++
      be32 (((b.Version <<< 24) % 2 ^ 32 + b.Flags) % 2 ^ 32) ++
      be32 (b.SampleCount.length % 2 ^ 32) ++ entryBytes b.SampleCount b.SampleOffset,
      cap, none⟩ (be32 c) rfl
    (by simp only [List.length_append, List.length_nil, be32_length, htype,
          entryBytes_length_short _ _ (Nat.le_of_lt hlen)]; omega)
  refine ⟨c, hc, ?_⟩
  simp only [SliceWriter.WriteUint32] at he
  rw [h5] at he
  simp only [CttsBox.EncodeSW, EncodeHeaderSW, SliceWriter.WriteUint32, SliceWriter.WriteString,
    SliceWriter.AccError, NewFixedSliceWriter, h1, h2, h3, h4, he]
  simp only [List.nil_append, headerBytes, bodyBytes, List.append_assoc]

theorem resolver_no_panic (b : CttsBox) (n : Nat) (hn : 1 ≤ n)
    (hlen : b.SampleCount.length ≤ b.SampleOffset.length) :
    b.GetCompositionTimeOffset n ≠ .panic := by
  have hn0 : ¬ n = 0 := by omega
  simp only [CttsBox.GetCompositionTimeOffset, hn0, if_false]
  by_cases hs : n - 1 < b.SampleCount.sum
  · obtain ⟨j, hj, _, _, hr⟩ := resolveLoop_run_any b b.SampleCount 0 (n - 1) hs
    rw [hr, Nat.zero_add, List.getElem?_eq_getElem (by omega : j < b.SampleOffset.length)]
    simp
  · rw [resolveLoop_beyond b b.SampleCount 0 (n - 1) (by omega)]
    simp

theorem resolver_trimmed (b : CttsBox) (n : Nat) :
    b.GetCompositionTimeOffset n = b.trimmed.GetCompositionTimeOffset n := by
  simp only [CttsBox.GetCompositionTimeOffset]
  by_cases hn0 : n = 0
  · simp only [hn0, if_true]
  · simp only [hn0, if_false]
    have hsc : b.trimmed.SampleCount = b.SampleCount := by simp only [CttsBox.trimmed]
    rw [hsc]
    apply resolveLoop_congr
    intro j hj
    simp only [CttsBox.trimmed, Nat.zero_add]
    rw [List.getElem?_take_of_lt hj]

theorem resolver_panic_iff (b : CttsBox) (n : Nat) (hn : 1 ≤ n) :
    b.GetCompositionTimeOffset n = .panic ↔
      ∃ i, b.SampleOffset.length ≤ i ∧ i < b.SampleCount.length ∧
        (b.SampleCount.take i).sum < n ∧ n ≤ (b.SampleCount.take (i + 1)).sum := by
  have hn0 : ¬ n = 0 := by omega
  simp only [CttsBox.GetCompositionTimeOffset, hn0, if_false]
  by_cases hs : n - 1 < b.SampleCount.sum
  · obtain ⟨j, hj, h1, h2, hr⟩ := resolveLoop_run_any b b.SampleCount 0 (n - 1) hs
    rw [hr, Nat.zero_add]
    constructor
    · intro hp
      cases hso : b.SampleOffset[j]? with
      | some o => rw [hso] at hp; cases hp
      | none =>
        exact ⟨j, List.getElem?_eq_none_iff.mp hso, hj, by omega, by omega⟩
    · rintro ⟨i, hi1, _, hi3, hi4⟩
      have hij : i = j := by
        by_contra hne
        rcases Nat.lt_or_gt_of_ne hne with hlt | hgt
        · have := sum_take_mono b.SampleCount (i + 1) j (by omega)
          omega
        · have := sum_take_mono b.SampleCount (j + 1) i (by omega)
          omega
      subst hij
      rw [List.getElem?_eq_none hi1]
  · rw [resolveLoop_beyond b b.SampleCount 0 (n - 1) (by omega)]
    constructor
    · intro hp; cases hp
    · rintro ⟨i, _, _, _, hi4⟩
      have h1 := sum_take_mono b.SampleCount (i + 1) b.SampleCount.length (by omega)
      rw [List.take_length] at h1
      omega

/-- C18: for `n ≥ 1`, with at least as many offsets as counts neither `EncodeSW` nor
`GetCompositionTimeOffset` panics, and `Size`, `EncodeSW` and the resolver give what they
give for the table without the surplus offsets; with fewer offsets than counts, `EncodeSW`
panics in every writer, after the writes for the entries that have an offset and for the
count of entry `len(SampleOffset)`, which is where the index is out of bounds, and the
resolver panics exactly for the `n` that fall in a run `i ≥ len(SampleOffset)`. -/
theorem index_safety (b : CttsBox) (sw : SliceWriter) (n cap : Nat) (hn : 1 ≤ n) :
    (b.SampleCount.length ≤ b.SampleOffset.length →
      (b.EncodeSW sw).2 ≠ .panic ∧ b.GetCompositionTimeOffset n ≠ .panic ∧
      b.EncodeSW sw = b.trimmed.EncodeSW sw ∧
      b.GetCompositionTimeOffset n = b.trimmed.GetCompositionTimeOffset n ∧
      b.Size = b.trimmed.Size) ∧
    (b.SampleOffset.length < b.SampleCount.length →
      (b.EncodeSW sw).2 = .panic ∧
      (∃ c, b.SampleCount[b.SampleOffset.length]? = some c ∧
        b.EncodeSW sw = (writeChunks sw (allChunks b ++ [be32 c]), .panic)) ∧
      (b.Size ≤ cap → ∃ c, b.SampleCount[b.SampleOffset.length]? = some c ∧
        b.EncodeSW (NewFixedSliceWriter cap)
          = (⟨headerBytes b ++ (bodyBytes b ++ be32 c), cap, none⟩, .panic) ∧
        (bodyBytes b).length = 8 + 8 * b.SampleOffset.length) ∧
      (b.GetCompositionTimeOffset n = .panic ↔
        ∃ i, b.SampleOffset.length ≤ i ∧ i < b.SampleCount.length ∧
          (b.SampleCount.take i).sum < n ∧ n ≤ (b.SampleCount.take (i + 1)).sum)) := by
  constructor
  · intro hlen
    exact ⟨EncodeSW_no_panic b sw hlen, resolver_no_panic b n hn hlen,
      EncodeSW_trimmed b sw hlen, resolver_trimmed b n, (trimmed_size b).symm⟩
  · intro hlen
    obtain ⟨c0, hc0, he0⟩ := EncodeSW_panics b sw hlen
    refine ⟨by rw [he0], ⟨c0, hc0, he0⟩, ?_, resolver_panic_iff b n hn⟩
    intro hcap
    obtain ⟨c, hc, he⟩ := EncodeSW_fresh_panic b cap hlen hcap
    refine ⟨c, hc, he, ?_⟩
    simp only [bodyBytes, List.length_append, be32_length,
      entryBytes_length_short _ _ (Nat.le_of_lt hlen)]
    omega

/-- C18, at the table with counts `[3, 2]` and the single offset 100: encoding into a
fresh writer of 32 bytes panics after the first entry and the second count, encoding into
a writer without any room panics as well, sample 4 makes the resolver panic and sample 3
does not; and at the table with the count 3 and the offsets 100 and 7 the surplus offset
is ignored. -/
theorem index_safety_witness :
    (⟨0, 0, [3, 2], [100]⟩ : CttsBox).EncodeSW (NewFixedSliceWriter 32)
        = (⟨[0, 0, 0, 32, 99, 116, 116, 115, 0, 0, 0, 0, 0, 0, 0, 2,
             0, 0, 0, 3, 0, 0, 0, 100, 0, 0, 0, 2], 32, none⟩, .panic) ∧
      ((⟨0, 0, [3, 2], [100]⟩ : CttsBox).EncodeSW (NewFixedSliceWriter 0)).2 = .panic ∧
      (⟨0, 0, [3, 2], [100]⟩ : CttsBox).GetCompositionTimeOffset 4 = .panic ∧
      (⟨0, 0, [3, 2], [100]⟩ : CttsBox).GetCompositionTimeOffset 3 ≠ .panic ∧
      (⟨0, 0, [3], [100, 7]⟩ : CttsBox).EncodeSW (NewFixedSliceWriter 24)
        = (⟨0, 0, [3], [100]⟩ : CttsBox).EncodeSW (NewFixedSliceWriter 24) ∧
      (⟨0, 0, [3], [100, 7]⟩ : CttsBox).GetCompositionTimeOffset 2 ≠ .panic := by
  have h := (index_safety ⟨0, 0, [3, 2], [100]⟩ (NewFixedSliceWriter 32) 4 32 (by decide)).2
    (by decide)
  have h0 := (index_safety ⟨0, 0, [3, 2], [100]⟩ (NewFixedSliceWriter 0) 4 32 (by decide)).2
    (by decide)
  have h3 := (index_safety ⟨0, 0, [3, 2], [100]⟩ (NewFixedSliceWriter 32) 3 32 (by decide)).2
    (by decide)
  have g := (index_safety ⟨0, 0, [3], [100, 7]⟩ (NewFixedSliceWriter 24) 2 24 (by decide)).1
    (by decide)
  refine ⟨?_, h0.1, ?_, ?_, ?_, g.2.1⟩
  · obtain ⟨c, hc, he, _⟩ := h.2.2.1 (by decide)
    have hc2 : c = 2 := by
      have : (⟨0, 0, [3, 2], [100]⟩ : CttsBox).SampleCount[
          (⟨0, 0, [3, 2], [100]⟩ : CttsBox).SampleOffset.length]? = some 2 := by decide
      rw [this] at hc
      exact (Option.some.inj hc).symm
    subst hc2
    rw [he]
    decide
  · exact h.2.2.2.mpr ⟨1, by decide, by decide, by decide, by decide⟩
  · intro hp
    obtain ⟨i, hi1, hi2, hi3, hi4⟩ := h3.2.2.2.mp hp
    have hi : i = 1 := by
      have : (⟨0, 0, [3, 2], [100]⟩ : CttsBox).SampleOffset.length = 1 := rfl
      have : (⟨0, 0, [3, 2], [100]⟩ : CttsBox).SampleCount.length = 2 := rfl
      omega
    subst hi
    revert hi3
    decide
  · rw [g.2.2.1]
    decide

end mp4
